import Mathlib

set_option maxRecDepth 8000

/-!
# Verification of the Firewheel sample-resource and convolution-node code

This file shallowly embeds, in Lean 4:

* the PCM sample conversion functions and the buffer-filling helpers of
  `crates/firewheel-core/src/sample_resource.rs`, and
* the convolution effect node of `crates/firewheel-nodes/src/convolution.rs`,

and proves properties of the embedded definitions.

Rust `f32` arithmetic is modelled exactly: an `f32` value is represented by
the rational number it denotes, and each Rust floating-point operation is
an exact rational operation followed by rounding to the nearest IEEE-754
binary32 value (round-to-nearest, ties-to-even).  All values arising in
this development lie well inside the normal range of binary32, so neither
overflow, underflow, subnormals nor signed zeros need to be modelled.
-/

/-! ## Definitions: the shallow embedding -/

/-- Number of binary digits of `n` (`0` for `n = 0`), computed with
explicit fuel so that it reduces in the kernel. -/
def bitsAux : Nat → Nat → Nat
  | 0, _ => 0
  | fuel + 1, n => if n = 0 then 0 else bitsAux fuel (n / 2) + 1

/-- Number of binary digits of `n`: `bits 0 = 0` and
`2 ^ (bits n - 1) ≤ n < 2 ^ bits n` for `n ≥ 1`. -/
def bits (n : Nat) : Nat := bitsAux n n

/-- `⌊log₂ (a/b)⌋` for `a, b ≥ 1`, computed from the bit lengths of `a`
and `b`: the true logarithm is `bits a - bits b` or `bits a - bits b - 1`,
and a single comparison decides which. -/
def rExp (a b : Nat) : ℤ :=
  if (if 0 ≤ (bits a : ℤ) - (bits b : ℤ)
      then b <<< ((bits a : ℤ) - (bits b : ℤ)).toNat ≤ a
      else b ≤ a <<< (-((bits a : ℤ) - (bits b : ℤ))).toNat)
  then (bits a : ℤ) - (bits b : ℤ)
  else (bits a : ℤ) - (bits b : ℤ) - 1

/-- Round the nonnegative rational `A / B` to the nearest integer, ties to
even. -/
def rN (A B : Nat) : Nat :=
  if B < 2 * (A % B) then A / B + 1
  else if 2 * (A % B) < B then A / B
  else if A / B % 2 = 0 then A / B else A / B + 1

/-- The scaling exponent: a binary32 value with exponent `e` is an integer
multiple of `2 ^ (e - 23)`, so `a / b` is rounded to a multiple of
`2 ^ (-(rT a b))`. -/
def rT (a b : Nat) : ℤ := 23 - rExp a b

/-- Round the positive rational `a / b` (with `a, b ≥ 1`) to the nearest
IEEE-754 binary32 value, ties to even, assuming the result is in the
normal range. -/
def roundPosF32 (a b : Nat) : ℚ :=
  if 0 ≤ rT a b then
    mkRat (rN (a <<< (rT a b).toNat) b) (2 ^ (rT a b).toNat)
  else
    mkRat (rN a (b <<< (-(rT a b)).toNat) <<< (-(rT a b)).toNat) 1

/-- Round a rational to the nearest IEEE-754 binary32 value
(round-to-nearest, ties-to-even; normal range). -/
def roundF32 (q : ℚ) : ℚ :=
  if q.num < 0 then -(roundPosF32 q.num.natAbs q.den)
  else if q.num = 0 then 0
  else roundPosF32 q.num.natAbs q.den

/-- Exact product of two rationals, built with `mkRat` so that it reduces
in the kernel. -/
def qMul (x y : ℚ) : ℚ := mkRat (x.num * y.num) (x.den * y.den)

/-- Exact difference of two rationals, built with `mkRat` so that it
reduces in the kernel. -/
def qSub (x y : ℚ) : ℚ :=
  mkRat (x.num * (y.den : ℤ) - y.num * (x.den : ℤ)) (x.den * y.den)

/-- IEEE-754 binary32 multiplication: exact product, then rounding. -/
def f32Mul (x y : ℚ) : ℚ := roundF32 (qMul x y)

/-- IEEE-754 binary32 subtraction: exact difference, then rounding. -/
def f32Sub (x y : ℚ) : ℚ := roundF32 (qSub x y)

/-- `pub fn pcm_i16_to_f32(s: i16) -> f32 { f32::from(s) * (1.0 / core::i16::MAX as f32) }`
The cast `f32::from(s)` is exact; `1.0 / 32767.0` is the correctly rounded
binary32 reciprocal; the product is one binary32 multiplication. -/
def pcm_i16_to_f32 (s : ℤ) : ℚ :=
  f32Mul (mkRat s 1) (roundF32 (mkRat 1 32767))

/-- `pub fn pcm_u16_to_f32(s: u16) -> f32 { ((f32::from(s)) * (2.0 / core::u16::MAX as f32)) - 1.0 }`
The cast is exact; `2.0 / 65535.0` is the correctly rounded binary32
constant; then one binary32 multiplication and one binary32 subtraction. -/
def pcm_u16_to_f32 (s : ℤ) : ℚ :=
  f32Sub (f32Mul (mkRat s 1) (roundF32 (mkRat 2 65535))) 1

/-- The signed conversion formula exactly as the specification states it:
`value = sample / 32767.0`, i.e. one correctly rounded binary32 division. -/
def pcm_i16_spec_formula (s : ℤ) : ℚ := roundF32 (mkRat s 32767)

/-- The unsigned conversion formula exactly as the specification states
it: `value = sample * (2.0/65535.0) - 1.0`. -/
def pcm_u16_spec_formula (s : ℤ) : ℚ :=
  f32Sub (f32Mul (mkRat s 1) (roundF32 (mkRat 2 65535))) 1

/-- Rust sliceRs expression `l[a..b]`. -/
def sliceRs (l : List α) (a b : Nat) : List α := (l.take b).drop a

/-- Overwrite `buf` from position `start` with `vals`, leaving the rest. -/
def writeAt (buf : List α) (start : Nat) (vals : List α) : List α :=
  buf.take start ++ vals ++ buf.drop (start + vals.length)

/-- `slice.chunks_exact(k)` (fuel-based so that it reduces in the
kernel): the list of consecutive complete `k`-element chunks. -/
def chunksExactAux (k : Nat) : Nat → List τ → List (List τ)
  | 0, _ => []
  | fuel + 1, l =>
    if 1 ≤ k ∧ k ≤ l.length then l.take k :: chunksExactAux k fuel (l.drop k)
    else []

def chunksExact (k : Nat) (l : List τ) : List (List τ) :=
  chunksExactAux k l.length l

/-- One destination-channel write of the interleaved general path:
`src_slice.chunks_exact(channels).zip(buf[buffer_range].iter_mut())`
writing `convert(src_chunk[ch_i])`. -/
def writeStrided [Inhabited τ] (bstart bend : Nat) (channels : Nat)
    (src : List τ) (convert : τ → α) (ch_i : Nat) (buf : List α) : List α :=
  writeAt buf bstart
    (((chunksExact channels src).map (fun c => convert (c.getD ch_i default))).take
      (sliceRs buf bstart bend).length)

/-- `(0..channels).zip(buffers.iter_mut())` applying `g ch_i buf` to the
first `channels` buffers (counting from `i`) and leaving the rest. -/
def zipChannels (g : Nat → List α → List α) (channels : Nat) :
    Nat → List (List α) → List (List α)
  | _, [] => []
  | i, buf :: rest =>
    (if i < channels then g i buf else buf) :: zipChannels g channels (i + 1) rest

/-- The general stride-by-`channels` path of `fill_buffers_interleaved`
(its final loop), on its own. -/
def fillInterleavedGeneral [Inhabited τ] (buffers : List (List α))
    (bstart bend : Nat) (start_frame : Nat) (channels : Nat)
    (data : List τ) (convert : τ → α) : List (List α) :=
  let frames := bend - bstart
  let src := sliceRs data (start_frame * channels) ((start_frame + frames) * channels)
  zipChannels (writeStrided bstart bend channels src convert) channels 0 buffers

/-- `pub fn fill_buffers_interleaved<T>(buffers, buffer_range, start_frame, channels, data, convert)`
with `buffer_range = bstart..bend`.  The three Rust branches are modelled
verbatim: a mono fast path, a stereo fast path over `chunks_exact(2)`,
and the general stride loop.  (`buffers[0]` on an empty `buffers` list
panics in Rust; the model returns the buffers unchanged there.) -/
def fill_buffers_interleaved [Inhabited τ] (buffers : List (List α))
    (bstart bend : Nat) (start_frame : Nat) (channels : Nat)
    (data : List τ) (convert : τ → α) : List (List α) :=
  let frames := bend - bstart
  if channels = 1 then
    match buffers with
    | [] => []
    | b0 :: rest =>
      writeAt b0 bstart
        (((sliceRs data start_frame (start_frame + frames)).map convert).take
          (sliceRs b0 bstart bend).length) :: rest
  else if channels = 2 ∧ 2 ≤ buffers.length then
    match buffers with
    | b0 :: b1 :: rest =>
      let src := sliceRs data (start_frame * 2) ((start_frame + frames) * 2)
      let chunks := chunksExact 2 src
      let count := min chunks.length
        (min (sliceRs b0 bstart bend).length (sliceRs b1 bstart bend).length)
      writeAt b0 bstart
          ((chunks.map (fun c => convert (c.getD 0 default))).take count) ::
        writeAt b1 bstart
          ((chunks.map (fun c => convert (c.getD 1 default))).take count) :: rest
    | _ => buffers
  else
    fillInterleavedGeneral buffers bstart bend start_frame channels data convert

/-- The general path of `fill_buffers_deinterleaved` (its final loop):
`buffers.iter_mut().zip(data.iter())`, each pair zipping
`buf[buffer_range]` with `ch[start_frame..start_frame + frames]`. -/
def fillDeinterleavedGeneral (buffers : List (List α)) (bstart bend : Nat)
    (start_frame : Nat) (data : List (List τ)) (convert : τ → α) :
    List (List α) :=
  let frames := bend - bstart
  List.zipWith
    (fun buf ch =>
      writeAt buf bstart
        (((sliceRs ch start_frame (start_frame + frames)).map convert).take
          (sliceRs buf bstart bend).length))
    buffers data
  ++ buffers.drop (min buffers.length data.length)

/-- `pub fn fill_buffers_deinterleaved<T, V>(buffers, buffer_range, start_frame, data, convert)`:
a stereo fast path (indexing `s0[i]`/`s1[i]` for `i in 0..frames`) and the
general per-channel loop. -/
def fill_buffers_deinterleaved (buffers : List (List α)) (bstart bend : Nat)
    (start_frame : Nat) (data : List (List τ)) (convert : τ → α) :
    List (List α) :=
  let frames := bend - bstart
  if data.length = 2 ∧ 2 ≤ buffers.length then
    match buffers, data with
    | b0 :: b1 :: rest, d0 :: d1 :: _ =>
      let s0 : List τ := sliceRs d0 start_frame (start_frame + frames)
      let s1 : List τ := sliceRs d1 start_frame (start_frame + frames)
      let count := min frames (min (min (sliceRs b0 bstart bend).length s0.length)
        (min (sliceRs b1 bstart bend).length s1.length))
      writeAt b0 bstart ((s0.map convert).take count) ::
        writeAt b1 bstart ((s1.map convert).take count) :: rest
    | bs, _ => bs
  else
    fillDeinterleavedGeneral buffers bstart bend start_frame data convert

/-- `pub fn fill_buffers_deinterleaved_f32<V>(buffers, buffer_range, start_frame, data)`:
`buf[buffer_range].copy_from_slice(&ch[start_frame..start_frame + frames])`
for each `(buf, ch)` pair of `buffers.iter_mut().zip(data.iter())`. -/
def fill_buffers_deinterleaved_f32 (buffers : List (List α)) (bstart bend : Nat)
    (start_frame : Nat) (data : List (List α)) : List (List α) :=
  let frames := bend - bstart
  List.zipWith
    (fun buf ch => writeAt buf bstart (sliceRs ch start_frame (start_frame + frames)))
    buffers data
  ++ buffers.drop (min buffers.length data.length)

/-- Exact rational addition via `mkRat`. -/
def qAdd (x y : ℚ) : ℚ :=
  mkRat (x.num * (y.den : ℤ) + y.num * (x.den : ℤ)) (x.den * y.den)

/-- Exact rational division via `mkRat` (zero divisor yields zero). -/
def qDiv (x y : ℚ) : ℚ :=
  if 0 ≤ y.num then mkRat (x.num * (y.den : ℤ)) (x.den * y.num.natAbs)
  else mkRat (-(x.num * (y.den : ℤ))) (x.den * y.num.natAbs)

/-- Exact rational absolute value. -/
def qAbs (q : ℚ) : ℚ := if q.num < 0 then mkRat (-q.num) q.den else q

/-- `FadeCurve` (modelled from the spec §4.3: equal-power variants,
square-root and linear curves; the node treats it as an opaque value). -/
inductive FadeCurve
  | EqualPower3dB
  | SquareRoot
  | Linear
deriving DecidableEq, Repr

/-- `DeclickFadeCurve` used by `Declicker::process` (modelled from the
spec; the node always passes `EqualPower3dB`). -/
inductive DeclickFadeCurve
  | EqualPower3dB
deriving DecidableEq, Repr

/-- A resource implementing `SampleResourceF32`: per-channel raw `f32`
data, as in the `Vec<Vec<f32>>` implementation (`channel(i)` is
`self.get(i)`). -/
structure SampleResourceF32Model where
  chans : List (List ℚ)
deriving DecidableEq, Repr

def SampleResourceF32Model.channel (r : SampleResourceF32Model) (i : Nat) :
    Option (List ℚ) :=
  r.chans.get? i

/-- `num_channels` (the trait returns `NonZeroUsize`; resources with an
empty channel list cannot arise and are excluded by hypothesis where it
matters). -/
def SampleResourceF32Model.num_channels (r : SampleResourceF32Model) : Nat :=
  r.chans.length

/-- `SmoothedParam` (modelled from the spec §4.3: holds current and
target, `set_value` retargets only, `process_into_buffer` writes one
ramp sample per frame from current toward target and leaves current
equal to target; the exact ramp shape is unspecified — a linear ramp is
modelled). -/
structure SmoothedParam where
  current : ℚ
  target : ℚ
deriving DecidableEq, Repr

def SmoothedParam.set_value (p : SmoothedParam) (v : ℚ) : SmoothedParam :=
  { p with target := v }

def SmoothedParam.rampValue (p : SmoothedParam) (n k : Nat) : ℚ :=
  qAdd p.current (qDiv (qMul (qSub p.target p.current) (mkRat (k + 1) 1)) (mkRat n 1))

def SmoothedParam.process_into_buffer (p : SmoothedParam) (n : Nat) :
    List ℚ × SmoothedParam :=
  ((List.range n).map (p.rampValue n), { current := p.target, target := p.target })

/-- `Declicker` (modelled from the spec §4.3: an enabled/disabled target
and a fade position in `[0, 1]`; `fade_to_enabled` sets the target and
begins or reverses the fade, `process` multiplies the buffer range by a
ramp stepping toward the target). -/
structure Declicker where
  target : Bool
  pos : ℚ
deriving DecidableEq, Repr

/-- `Declicker::default()`: fully enabled, no fade in progress. -/
def Declicker.default : Declicker := { target := true, pos := mkRat 1 1 }

def Declicker.fade_to_enabled (d : Declicker) (enabled : Bool) : Declicker :=
  { d with target := enabled }

/-- The fade gains for one block and the final fade position (modelled
from the spec: each frame steps `pos` by the ambient declick step toward
the target, clamped to `[0, 1]`). -/
def declickGains (target : Bool) (step : ℚ) : Nat → ℚ → List ℚ × ℚ
  | 0, pos => ([], pos)
  | n + 1, pos =>
    let next : ℚ :=
      if target then (if qAdd pos step ≤ 1 then qAdd pos step else 1)
      else (if 0 ≤ qSub pos step then qSub pos step else 0)
    let rest := declickGains target step n next
    (next :: rest.1, rest.2)

def Declicker.process (d : Declicker) (buffers : List (List ℚ))
    (rstart rend : Nat) (step : ℚ) (depth : ℚ) (_curve : DeclickFadeCurve) :
    List (List ℚ) × Declicker :=
  let gains := declickGains d.target step (rend - rstart) d.pos
  (buffers.map (fun buf =>
      writeAt buf rstart
        (List.zipWith (fun s g => qMul s (qMul g depth)) (sliceRs buf rstart rend)
          gains.1)),
    { d with pos := gains.2 })

/-- `LowpassDeclicker` (modelled from the spec §4.3: a slower dedicated
crossfade masking impulse-response swaps; `begin` restarts it and
`process` applies it every block; its shape is unspecified — a linear
progress value scaling the whole block is modelled). -/
structure LowpassDeclicker where
  progress : ℚ
deriving DecidableEq, Repr

def LowpassDeclicker.begin (_d : LowpassDeclicker) : LowpassDeclicker :=
  { progress := 0 }

def LowpassDeclicker.process (d : LowpassDeclicker)
    (buffers : List (List ℚ)) (frames : Nat) : List (List ℚ) × LowpassDeclicker :=
  (buffers.map (fun buf =>
      writeAt buf 0
        (List.zipWith (fun s g => qMul s g) (sliceRs buf 0 frames)
          (List.replicate frames d.progress))),
    { progress := if qAdd d.progress (mkRat 1 5) ≤ 1 then qAdd d.progress (mkRat 1 5)
      else 1 })

/-- `MixDSP` (modelled from the spec §4.3: wet/dry ratio and fade curve;
`set_mix` takes effect on the next block; the mono and stereo routines
mix the dry signal into the wet buffer in place using the ratio — the
concrete curve weighting is unspecified, linear weights are modelled). -/
structure MixDSP where
  mix : ℚ
  curve : FadeCurve
deriving DecidableEq, Repr

def MixDSP.set_mix (m : MixDSP) (mix : ℚ) (curve : FadeCurve) : MixDSP :=
  { mix := mix, curve := curve }

def MixDSP.mixSample (m : MixDSP) (dry wet : ℚ) : ℚ :=
  qAdd (qMul (qSub (mkRat 1 1) m.mix) dry) (qMul m.mix wet)

def MixDSP.mix_dry_into_wet_mono (m : MixDSP) (dry wet : List ℚ)
    (frames : Nat) : List ℚ :=
  writeAt wet 0
    (List.zipWith m.mixSample (dry.take frames) (sliceRs wet 0 frames))

/-- `Mix::CENTER` (modelled from the spec: the default wet/dry ratio). -/
def mixCenter : ℚ := mkRat 1 2

/-- `f32::EPSILON`, the silence threshold of
`check_for_silence_on_outputs`. -/
def f32Epsilon : ℚ := mkRat 1 (2 ^ 23)

/-- `ProcessStatus` (§3: silence, bypass, or produced audio; the produced
case carries the per-channel silence scan of step 8 of the per-block
algorithm). -/
inductive ProcessStatus
  | ClearAllOutputs
  | Bypass
  | OutputsModified (silent : List Bool)
deriving DecidableEq, Repr

/-- `check_for_silence_on_outputs` (modelled from the spec §4.4 step 8:
scan the final output for effective silence — every sample within a
small epsilon of zero — and report it in the `ProcessStatus`). -/
def check_for_silence_on_outputs (outputs : List (List ℚ)) (eps : ℚ) :
    ProcessStatus :=
  ProcessStatus.OutputsModified
    (outputs.map (fun ch => ch.all (fun s => qAbs s ≤ eps)))

/-- The parameter record of `ConvolutionNode<CHANNELS>`.  `wet_gain` is a
`Volume`; the model stores the amplitude `volume.amp()` that the patch
handler feeds to the gain smoother. -/
structure ConvolutionNode where
  paused : Bool
  mix : ℚ
  fade_curve : FadeCurve
  impulse_response : Option SampleResourceF32Model
  wet_gain : ℚ
deriving DecidableEq, Repr

/-- `ConvolutionNodeConfig`: the maximum number of supported IR channels
(a `ChannelCount`, `MONO = 1` or `STEREO = 2`); this determines the
number of convolver buffers allocated. -/
structure ConvolutionNodeConfig where
  max_impulse_channel_count : Nat
deriving DecidableEq, Repr

/-- `ConvolutionNodeConfig::default()`: `ChannelCount::STEREO`. -/
def ConvolutionNodeConfig.default : ConvolutionNodeConfig :=
  { max_impulse_channel_count := 2 }

/-- `ConvolutionNode::default()` (`Volume::Decibels(-20).amp() = 10^(-1)`). -/
def ConvolutionNode.defaultNode : ConvolutionNode :=
  { paused := false, mix := mixCenter, fade_curve := FadeCurve.EqualPower3dB,
    impulse_response := none, wet_gain := mkRat 1 10 }

/-- The patch type derived from the parameter record: one case per
field, carrying the new value. -/
inductive ConvolutionNodePatch
  | Mix (mix : ℚ)
  | FadeCurve (curve : FadeCurve)
  | ImpulseResponse (impulse_response : Option SampleResourceF32Model)
  | WetGain (wet_gain : ℚ)
  | Paused (paused : Bool)
deriving DecidableEq, Repr

/-- The abstract convolution engine (`fft_convolver::FFTConvolver`):
`init block_size ir_channel state` re-initializes an engine and
`run state input` produces the engine's output block for an input
block.  `convolution.rs` treats the engine as a black box. -/
structure ConvOps (γ : Type) where
  init : Nat → List ℚ → γ → γ
  run : γ → List ℚ → γ × List ℚ

/-- `AudioNodeInfo` as far as `ConvolutionNode::info` constructs it. -/
structure AudioNodeInfoModel where
  debug_name : String
  num_inputs : Nat
  num_outputs : Nat
deriving DecidableEq, Repr

/-- `ConvolutionNode::info`: `if CHANNELS > 2 { panic }` (modelled as
`none`), else an info value with `ChannelConfig::new(CHANNELS, CHANNELS)`. -/
def ConvolutionNode.info (CHANNELS : Nat) : Option AudioNodeInfoModel :=
  if CHANNELS > 2 then none
  else some ⟨"convolution", CHANNELS, CHANNELS⟩

/-- The processor state (`ConvolutionProcessor<CHANNELS>`). -/
structure ConvolutionProcessor (γ : Type) where
  params : ConvolutionNode
  convolvers : List γ
  input_buffers : List (List ℚ)
  mix : MixDSP
  wet_gain_smoothed : SmoothedParam
  wet_gain_buffer : List ℚ
  declick : Declicker
  change_ir_declick : LowpassDeclicker

/-- `ConvolutionNode::construct_processor`: allocates
`max_impulse_channel_count` default convolvers, a `CHANNELS`-channel
input delay buffer of `max_block_frames` zeros, and mirrors the
parameter record. -/
def construct_processor (CHANNELS : Nat) (γ : Type) (dflt : γ)
    (node : ConvolutionNode) (configuration : ConvolutionNodeConfig)
    (max_block_frames : Nat) : ConvolutionProcessor γ :=
  { params := node,
    convolvers := List.replicate configuration.max_impulse_channel_count dflt,
    input_buffers := List.replicate CHANNELS (List.replicate max_block_frames 0),
    mix := { mix := node.mix, curve := node.fade_curve },
    wet_gain_smoothed := { current := node.wet_gain, target := node.wet_gain },
    wet_gain_buffer := List.replicate max_block_frames 0,
    declick := Declicker.default,
    change_ir_declick := { progress := 1 } }

def MixDSP.mix_dry_into_wet_stereo (m : MixDSP) (dry_l dry_r wet_l wet_r : List ℚ)
    (frames : Nat) : List ℚ × List ℚ :=
  (writeAt wet_l 0 (List.zipWith m.mixSample (dry_l.take frames) (sliceRs wet_l 0 frames)),
   writeAt wet_r 0 (List.zipWith m.mixSample (dry_r.take frames) (sliceRs wet_r 0 frames)))

/-- The convolver re-initialization loop of the `ImpulseResponse` patch
handler: `for ir_channel_id in 0..count`, each iteration taking
`impulse_response.channel(id)` with a fallback to `channel(0)` (whose
`unwrap` fails — `none` — on a resource with no channels), and indexing
`self.convolvers[ir_channel_id]` (out of bounds — `none` — when the
vector is shorter than the loop bound). -/
def initConvolversAux (γ : Type) (ops : ConvOps γ) (frames : Nat)
    (resource : SampleResourceF32Model) :
    Nat → Nat → List γ → Option (List γ)
  | 0, _, convs => some convs
  | n + 1, ir_channel_id, convs =>
    match (resource.channel ir_channel_id).or (resource.channel 0) with
    | none => none
    | some chData =>
      if h : ir_channel_id < convs.length then
        initConvolversAux γ ops frames resource n (ir_channel_id + 1)
          (convs.set ir_channel_id (ops.init frames chData (convs.get ⟨ir_channel_id, h⟩)))
      else none

def initConvolvers (γ : Type) (ops : ConvOps γ) (frames : Nat)
    (resource : SampleResourceF32Model) (count : Nat) (convs : List γ) :
    Option (List γ) :=
  initConvolversAux γ ops frames resource count 0 convs

/-- One step of the patch-drain loop at the top of
`ConvolutionProcessor::process`.  The accumulator carries the processor
state together with the loop-local `will_pause` and `ir_changed` flags;
`none` models an out-of-bounds `self.convolvers[..]` access or a failed
`unwrap` of `impulse_response.channel(0)`. -/
def applyPatch (CHANNELS : Nat) (γ : Type) (ops : ConvOps γ) (frames : Nat)
    (acc : ConvolutionProcessor γ × Bool × Bool) (patch : ConvolutionNodePatch) :
    Option (ConvolutionProcessor γ × Bool × Bool) :=
  let st := acc.1
  let will_pause := acc.2.1
  let ir_changed := acc.2.2
  match patch with
  | ConvolutionNodePatch.Mix mix =>
    some ({ st with mix := st.mix.set_mix mix st.params.fade_curve },
      will_pause, ir_changed)
  | ConvolutionNodePatch.FadeCurve curve =>
    some ({ st with mix := st.mix.set_mix st.params.mix curve },
      will_pause, ir_changed)
  | ConvolutionNodePatch.ImpulseResponse impulse_response =>
    let st1 := { st with params := { st.params with impulse_response := impulse_response } }
    match impulse_response with
    | none => some (st1, will_pause, true)
    | some resource =>
      let ir_num_channels := min resource.num_channels CHANNELS
      match initConvolvers γ ops frames resource (max ir_num_channels CHANNELS)
          st1.convolvers with
      | none => none
      | some convs => some ({ st1 with convolvers := convs }, will_pause, true)
  | ConvolutionNodePatch.WetGain wet_gain =>
    some ({ st with wet_gain_smoothed := st.wet_gain_smoothed.set_value wet_gain },
      will_pause, ir_changed)
  | ConvolutionNodePatch.Paused paused =>
    let st1 := if ¬ paused then { st with params := { st.params with paused := false } }
      else st
    let will_pause1 := if ¬ paused then will_pause else true
    some ({ st1 with declick := st1.declick.fade_to_enabled (¬ paused) },
      will_pause1, ir_changed)

/-- The full patch drain: apply every pending patch in arrival order. -/
def drainPatches (CHANNELS : Nat) (γ : Type) (ops : ConvOps γ) (frames : Nat)
    (st : ConvolutionProcessor γ) (patches : List ConvolutionNodePatch) :
    Option (ConvolutionProcessor γ × Bool × Bool) :=
  patches.foldlM (applyPatch CHANNELS γ ops frames) (st, false, false)

/-- Element-wise copy `for (copy_into, copy_from) in dst.iter_mut().zip(src)`. -/
def copyInto (dst src : List ℚ) : List ℚ :=
  src.take (min dst.length src.length) ++ dst.drop (min dst.length src.length)

/-- The per-input-channel convolution loop of `process`:
`self.convolvers[input_index].process(input, buffers.outputs[input_index])`
(out-of-bounds indexing is `none`), then the wet-gain scaling
`for (output_sample, gain) in outputs[i].iter_mut().zip(wet_gain_buffer)`. -/
def convolveChannels (γ : Type) (ops : ConvOps γ) (gains : List ℚ) :
    List (List ℚ) → Nat → List γ → List (List ℚ) →
    Option (List γ × List (List ℚ))
  | [], _, convs, outs => some (convs, outs)
  | input :: restInputs, input_index, convs, outs =>
    if h : input_index < convs.length then
      let res := ops.run (convs.get ⟨input_index, h⟩) input
      if input_index < outs.length then
        let scaled := List.zipWith qMul res.2 gains ++ res.2.drop gains.length
        convolveChannels γ ops gains restInputs (input_index + 1)
          (convs.set input_index res.1) (outs.set input_index scaled)
      else none
    else none

/-- `ConvolutionProcessor::process`.

* drain and apply all pending patches (tracking `will_pause` and
  `ir_changed`);
* if paused, return `ClearAllOutputs`;
* if no impulse response is loaded, return `Bypass`;
* otherwise: fill the wet-gain ramp, convolve each input channel into
  its output and scale it by the ramp, mix the previous block's dry
  input (held in `input_buffers`) into the wet output (mono and stereo
  only — any other `CHANNELS` value hits the `unreachable` arm), copy
  this block's input into `input_buffers`, apply the enable/disable
  declicker, restart the IR-change declicker if the impulse response
  changed and apply it, commit a deferred pause, and scan for silence. -/
def process (CHANNELS : Nat) (γ : Type) (ops : ConvOps γ)
    (st : ConvolutionProcessor γ) (patches : List ConvolutionNodePatch)
    (inputs : List (List ℚ)) (outputs : List (List ℚ)) (frames : Nat)
    (declick_step : ℚ) :
    Option (ConvolutionProcessor γ × ProcessStatus × List (List ℚ)) :=
  match drainPatches CHANNELS γ ops frames st patches with
  | none => none
  | some (st1, will_pause, ir_changed) =>
    if st1.params.paused then some (st1, ProcessStatus.ClearAllOutputs, outputs)
    else if st1.params.impulse_response.isNone then
      some (st1, ProcessStatus.Bypass, outputs)
    else
      let smoothRes := st1.wet_gain_smoothed.process_into_buffer
        st1.wet_gain_buffer.length
      let st2 := { st1 with wet_gain_smoothed := smoothRes.2
                            wet_gain_buffer := smoothRes.1 }
      match convolveChannels γ ops st2.wet_gain_buffer inputs 0 st2.convolvers
          outputs with
      | none => none
      | some (convs1, outs1) =>
        let st3 := { st2 with convolvers := convs1 }
        match (if CHANNELS = 1 then
            some [st3.mix.mix_dry_into_wet_mono (st3.input_buffers.getD 0 [])
              (outs1.getD 0 []) frames]
          else if CHANNELS = 2 then
            let mixed := st3.mix.mix_dry_into_wet_stereo
              (st3.input_buffers.getD 0 []) (st3.input_buffers.getD 1 [])
              (outs1.getD 0 []) (outs1.getD 1 []) frames
            some [mixed.1, mixed.2]
          else none) with
        | none => none
        | some mixedOuts =>
          let outs2 := (List.range outs1.length).map (fun i =>
            if i < CHANNELS then mixedOuts.getD i [] else outs1.getD i [])
          let newInternal := List.zipWith copyInto st3.input_buffers inputs
            ++ st3.input_buffers.drop (min st3.input_buffers.length inputs.length)
          let st4 := { st3 with input_buffers := newInternal }
          let declickRes := st4.declick.process outs2 0 frames declick_step
            (mkRat 1 1) DeclickFadeCurve.EqualPower3dB
          let st5 := { st4 with declick := declickRes.2 }
          let st6 := if ir_changed then
            { st5 with change_ir_declick := st5.change_ir_declick.begin } else st5
          let lpRes := st6.change_ir_declick.process declickRes.1 frames
          let st7 := { st6 with change_ir_declick := lpRes.2 }
          let st8 := if will_pause then
            { st7 with params := { st7.params with paused := true } } else st7
          some (st8, check_for_silence_on_outputs lpRes.1 f32Epsilon, lpRes.1)

/-- A trivial convolver instance used to exercise the processor model at
concrete inputs: `run` is the identity on the input block. -/
def unitConvOps : ConvOps Unit :=
  ⟨fun _ _ _ => (), fun _ ins => ((), ins)⟩

/-! ## Theorems -/

theorem bitsAux_zero : ∀ fuel, bitsAux fuel 0 = 0
  | 0 => rfl
  | _ + 1 => rfl

theorem bitsAux_spec : ∀ fuel n, n ≤ fuel →
    n < 2 ^ bitsAux fuel n ∧ (1 ≤ n → 2 ^ (bitsAux fuel n - 1) ≤ n) := by
  intro fuel
  induction fuel with
  | zero =>
    intro n hn
    interval_cases n
    simp [bitsAux]
  | succ fuel ih =>
    intro n hn
    by_cases h0 : n = 0
    · subst h0; simp [bitsAux]
    · have hn2 : n / 2 ≤ fuel := by
        have h1 : 1 ≤ n := Nat.one_le_iff_ne_zero.mpr h0
        have := Nat.div_le_self n 2
        rcases Nat.lt_or_ge n 2 with h | h
        · interval_cases n
          · omega
        · have : n / 2 < n := Nat.div_lt_self (by omega) (by omega)
          omega
      obtain ⟨ha, hb⟩ := ih (n / 2) hn2
      constructor
      · show n < 2 ^ bitsAux (fuel + 1) n
        simp only [bitsAux, if_neg h0]
        have : n / 2 < 2 ^ bitsAux fuel (n / 2) := ha
        have : n < 2 ^ (bitsAux fuel (n / 2) + 1) := by
          rw [pow_succ]
          omega
        exact this
      · intro _
        show 2 ^ (bitsAux (fuel + 1) n - 1) ≤ n
        simp only [bitsAux, if_neg h0]
        by_cases h1 : n / 2 = 0
        · simp [h1, bitsAux_zero] at *
          omega
        · have h2 : 1 ≤ n / 2 := Nat.one_le_iff_ne_zero.mpr h1
          have := hb h2
          have hpos : 1 ≤ bitsAux fuel (n / 2) := by
            by_contra hc
            push_neg at hc
            interval_cases h : bitsAux fuel (n / 2)
            · simp [h] at ha
              omega
          have : 2 ^ (bitsAux fuel (n / 2) + 1 - 1) ≤ n := by
            have : 2 ^ (bitsAux fuel (n / 2) - 1) * 2 ≤ n / 2 * 2 :=
              Nat.mul_le_mul_right 2 (hb h2)
            have h3 : n / 2 * 2 ≤ n := Nat.div_mul_le_self n 2
            calc 2 ^ (bitsAux fuel (n / 2) + 1 - 1)
                = 2 ^ (bitsAux fuel (n / 2) - 1) * 2 := by
                  rw [Nat.add_sub_cancel, ← pow_succ]
                  congr 1
                  omega
              _ ≤ n / 2 * 2 := by omega
              _ ≤ n := h3
          exact this

theorem bits_lt (n : Nat) : n < 2 ^ bits n :=
  (bitsAux_spec n n le_rfl).1

theorem bits_le (n : Nat) (h : 1 ≤ n) : 2 ^ (bits n - 1) ≤ n :=
  (bitsAux_spec n n le_rfl).2 h

theorem rN_le (A B M : Nat) (hB : 1 ≤ B) (h : A ≤ M * B) : rN A B ≤ M := by
  have hdm := Nat.div_add_mod A B
  have hmod : A % B < B := Nat.mod_lt A (by omega)
  have hdiv : A / B ≤ M := by
    have h1 : A / B ≤ M * B / B := Nat.div_le_div_right h
    rwa [Nat.mul_div_cancel M (by omega : 0 < B)] at h1
  have hsucc : 1 ≤ A % B → A / B + 1 ≤ M := by
    intro hr
    have h2 : B * (A / B) < A := by omega
    have h3 : A ≤ B * M := by rw [Nat.mul_comm]; exact h
    have h4 : B * (A / B) < B * M := by omega
    have h5 : A / B < M := Nat.lt_of_mul_lt_mul_left h4
    omega
  unfold rN
  split_ifs with c1 c2 c3
  · exact hsucc (by omega)
  · exact hdiv
  · exact hdiv
  · exact hsucc (by omega)

theorem rExp_le (a b k : Nat) (ha : 1 ≤ a) (hb : 1 ≤ b)
    (h : a ≤ 2 ^ k * b) : rExp a b ≤ (k : ℤ) := by
  have h1 : 2 ^ (bits a - 1) ≤ a := bits_le a ha
  have h2 : b < 2 ^ bits b := bits_lt b
  have h3 : 2 ^ (bits a - 1) < 2 ^ k * 2 ^ bits b := by
    calc 2 ^ (bits a - 1) ≤ a := h1
      _ ≤ 2 ^ k * b := h
      _ < 2 ^ k * 2 ^ bits b := by
          exact mul_lt_mul_of_pos_left h2 (by positivity)
  rw [← pow_add] at h3
  have h4 : bits a - 1 < k + bits b :=
    (Nat.pow_lt_pow_iff_right (by omega : 1 < 2)).mp h3
  have h5 : (bits a : ℤ) - (bits b : ℤ) ≤ (k : ℤ) + 1 := by omega
  unfold rExp
  split_ifs with c0 c1 c1
  · -- the tested comparison certifies `b * 2 ^ d ≤ a`, so `d ≤ k`
    rw [Nat.shiftLeft_eq] at c1
    have h6 : b * 2 ^ ((bits a : ℤ) - (bits b : ℤ)).toNat ≤ b * 2 ^ k := by
      calc b * 2 ^ ((bits a : ℤ) - (bits b : ℤ)).toNat ≤ a := c1
        _ ≤ 2 ^ k * b := h
        _ = b * 2 ^ k := Nat.mul_comm _ _
    have h7 : 2 ^ ((bits a : ℤ) - (bits b : ℤ)).toNat ≤ 2 ^ k :=
      Nat.le_of_mul_le_mul_left h6 (by omega)
    have h8 : ((bits a : ℤ) - (bits b : ℤ)).toNat ≤ k :=
      (Nat.pow_le_pow_iff_right (by omega : 1 < 2)).mp h7
    omega
  · omega
  · -- `d < 0 ≤ k`
    omega
  · omega

theorem roundPosF32_nonneg (a b : Nat) : 0 ≤ roundPosF32 a b := by
  unfold roundPosF32
  split_ifs with ht
  · rw [Rat.mkRat_eq_div]
    positivity
  · rw [Rat.mkRat_eq_div]
    positivity

theorem roundPosF32_le (a b k : Nat) (ha : 1 ≤ a) (hb : 1 ≤ b) (hk : k ≤ 23)
    (h : a ≤ 2 ^ k * b) : roundPosF32 a b ≤ 2 ^ k := by
  have he : rExp a b ≤ (k : ℤ) := rExp_le a b k ha hb h
  have ht : 0 ≤ rT a b := by unfold rT; omega
  unfold roundPosF32
  rw [if_pos ht]
  have hA : a <<< (rT a b).toNat = a * 2 ^ (rT a b).toNat := Nat.shiftLeft_eq _ _
  have hrn : rN (a <<< (rT a b).toNat) b ≤ 2 ^ k * 2 ^ (rT a b).toNat := by
    apply rN_le _ _ _ hb
    rw [hA]
    calc a * 2 ^ (rT a b).toNat ≤ (2 ^ k * b) * 2 ^ (rT a b).toNat :=
          Nat.mul_le_mul_right _ h
      _ = 2 ^ k * 2 ^ (rT a b).toNat * b := by ring
  rw [Rat.mkRat_eq_div]
  rw [div_le_iff₀ (by positivity : (0 : ℚ) < ((2 ^ (rT a b).toNat : ℕ) : ℚ))]
  push_cast
  calc ((rN (a <<< (rT a b).toNat) b : ℚ)) ≤ ((2 ^ k * 2 ^ (rT a b).toNat : ℕ) : ℚ) := by
        exact_mod_cast hrn
    _ = 2 ^ k * 2 ^ (rT a b).toNat := by push_cast; ring

theorem roundF32_nonneg (q : ℚ) (h : 0 ≤ q) : 0 ≤ roundF32 q := by
  unfold roundF32
  split_ifs with h1 h2
  · exfalso
    have := Rat.num_nonneg.mpr h
    omega
  · exact le_rfl
  · exact roundPosF32_nonneg _ _

theorem roundF32_le_pow (q : ℚ) (k : Nat) (hk : k ≤ 23) (h : q ≤ 2 ^ k) :
    roundF32 q ≤ 2 ^ k := by
  unfold roundF32
  split_ifs with h1 h2
  · have : 0 ≤ roundPosF32 q.num.natAbs q.den := roundPosF32_nonneg _ _
    have h2 : (0 : ℚ) ≤ 2 ^ k := by positivity
    linarith
  · positivity
  · apply roundPosF32_le _ _ _ (by omega) q.pos hk
    -- from `q ≤ 2 ^ k` with positive numerator: `q.num ≤ 2 ^ k * q.den`
    have hd : (0 : ℚ) < (q.den : ℚ) := by exact_mod_cast q.pos
    have hq : (q.num : ℚ) / (q.den : ℚ) = q := Rat.num_div_den q
    have h3 : (q.num : ℚ) ≤ 2 ^ k * (q.den : ℚ) := by
      rw [← hq] at h
      exact (div_le_iff₀ hd).mp h
    have h4 : q.num ≤ (2 ^ k : ℤ) * (q.den : ℤ) := by exact_mod_cast h3
    have h5 : (q.num.natAbs : ℤ) = q.num := Int.natAbs_of_nonneg (by omega)
    have h6 : (q.num.natAbs : ℤ) ≤ ((2 ^ k * q.den : ℕ) : ℤ) := by
      rw [h5]; push_cast; exact h4
    exact_mod_cast h6

theorem roundF32_neg_le_pow (q : ℚ) (k : Nat) (hk : k ≤ 23) (h : -(2 ^ k) ≤ q) :
    -(2 ^ k) ≤ roundF32 q := by
  unfold roundF32
  split_ifs with h1 h2
  · rw [neg_le_neg_iff]
    apply roundPosF32_le _ _ _ (by omega) q.pos hk
    have hd : (0 : ℚ) < (q.den : ℚ) := by exact_mod_cast q.pos
    have hq : (q.num : ℚ) / (q.den : ℚ) = q := Rat.num_div_den q
    have h3 : -(2 ^ k) * (q.den : ℚ) ≤ (q.num : ℚ) := by
      rw [← hq] at h
      exact (le_div_iff₀ hd).mp h
    have h4 : -((2 ^ k : ℤ) * (q.den : ℤ)) ≤ q.num := by
      have : -((2 ^ k : ℚ) * (q.den : ℚ)) ≤ (q.num : ℚ) := by linarith
      exact_mod_cast this
    have h5 : (q.num.natAbs : ℤ) = -q.num := by
      omega
    have h6 : (q.num.natAbs : ℤ) ≤ ((2 ^ k * q.den : ℕ) : ℤ) := by
      rw [h5]; push_cast; omega
    exact_mod_cast h6
  · have : (0 : ℚ) ≤ 2 ^ k := by positivity
    linarith
  · have := roundPosF32_nonneg q.num.natAbs q.den
    have h2 : (0 : ℚ) ≤ 2 ^ k := by positivity
    linarith

theorem qMul_eq (x y : ℚ) : qMul x y = x * y := by
  rw [qMul, Rat.mul_def, Rat.normalize_eq_mkRat]

theorem qSub_eq (x y : ℚ) : qSub x y = x - y := by
  rw [qSub, ← Rat.sub_def']

/-- The correctly rounded binary32 value of `2 / 65535`. -/
theorem round_two_div_u16max : roundF32 (mkRat 2 65535) = mkRat 65537 (2 ^ 31) := by
  decide

theorem pcm_u16_to_f32_mem_Icc (s : ℤ) (h0 : 0 ≤ s) (h1 : s ≤ 65535) :
    -1 ≤ pcm_u16_to_f32 s ∧ pcm_u16_to_f32 s ≤ 1 := by
  unfold pcm_u16_to_f32 f32Sub f32Mul
  rw [qMul_eq, round_two_div_u16max, Rat.mkRat_eq_div, Rat.mkRat_eq_div]
  have hc : (0 : ℚ) ≤ (65537 : ℚ) / ((2 ^ 31 : ℕ) : ℚ) := by positivity
  have hs0 : (0 : ℚ) ≤ ((s : ℚ) / ((1 : ℕ) : ℚ)) := by
    push_cast
    simp only [div_one]
    exact_mod_cast h0
  have hs1 : ((s : ℚ) / ((1 : ℕ) : ℚ)) ≤ 65535 := by
    push_cast
    simp only [div_one]
    exact_mod_cast h1
  have hprod0 : (0 : ℚ) ≤ (s : ℚ) / ((1 : ℕ) : ℚ) * ((65537 : ℚ) / ((2 ^ 31 : ℕ) : ℚ)) :=
    mul_nonneg hs0 hc
  have hprod2 : (s : ℚ) / ((1 : ℕ) : ℚ) * ((65537 : ℚ) / ((2 ^ 31 : ℕ) : ℚ)) ≤ 2 ^ 1 := by
    calc (s : ℚ) / ((1 : ℕ) : ℚ) * ((65537 : ℚ) / ((2 ^ 31 : ℕ) : ℚ))
        ≤ 65535 * ((65537 : ℚ) / ((2 ^ 31 : ℕ) : ℚ)) := mul_le_mul_of_nonneg_right hs1 hc
      _ ≤ 2 ^ 1 := by norm_num
  have hm0 : (0 : ℚ) ≤ roundF32 ((s : ℚ) / ((1 : ℕ) : ℚ) * ((65537 : ℚ) / ((2 ^ 31 : ℕ) : ℚ))) :=
    roundF32_nonneg _ hprod0
  have hm2 : roundF32 ((s : ℚ) / ((1 : ℕ) : ℚ) * ((65537 : ℚ) / ((2 ^ 31 : ℕ) : ℚ))) ≤ 2 ^ 1 :=
    roundF32_le_pow _ 1 (by omega) hprod2
  rw [qSub_eq]
  constructor
  · have := roundF32_neg_le_pow
      (roundF32 ((s : ℚ) / ((1 : ℕ) : ℚ) * ((65537 : ℚ) / ((2 ^ 31 : ℕ) : ℚ))) - 1) 0
      (by omega) (by norm_num at hm0 hm2 ⊢; linarith)
    norm_num at this ⊢
    linarith
  · have := roundF32_le_pow
      (roundF32 ((s : ℚ) / ((1 : ℕ) : ℚ) * ((65537 : ℚ) / ((2 ^ 31 : ℕ) : ℚ))) - 1) 0
      (by omega) (by norm_num at hm0 hm2 ⊢; linarith)
    norm_num at this ⊢
    linarith

theorem sliceRs_length (l : List α) (a b : Nat) :
    (sliceRs l a b).length = min b l.length - a := by
  simp [sliceRs]

theorem sliceRs_self_empty (l : List α) (a : Nat) : sliceRs l a a = [] := by
  apply List.eq_nil_of_length_eq_zero
  rw [sliceRs_length]
  omega

theorem writeAt_nil (buf : List α) (s : Nat) : writeAt buf s [] = buf := by
  simp [writeAt]

theorem writeAt_length (buf : List α) (s : Nat) (vals : List α)
    (h : s + vals.length ≤ buf.length) :
    (writeAt buf s vals).length = buf.length := by
  simp [writeAt]
  omega

theorem writeAt_take (buf : List α) (s : Nat) (vals : List α)
    (h : s ≤ buf.length) :
    (writeAt buf s vals).take s = buf.take s := by
  rw [writeAt, List.append_assoc]
  rw [List.take_left' (by simp; omega)]

theorem writeAt_drop (buf : List α) (s : Nat) (vals : List α)
    (h : s ≤ buf.length) :
    (writeAt buf s vals).drop (s + vals.length) = buf.drop (s + vals.length) := by
  rw [writeAt]
  rw [List.drop_left' (show (List.take s buf ++ vals).length = s + vals.length by simp; omega)]

theorem writeAt_sliceRs (buf : List α) (s : Nat) (vals : List α)
    (h : s + vals.length ≤ buf.length) :
    sliceRs (writeAt buf s vals) s (s + vals.length) = vals := by
  rw [sliceRs, writeAt]
  rw [List.take_left' (show (List.take s buf ++ vals).length = s + vals.length by simp; omega)]
  rw [List.drop_left' (show (List.take s buf).length = s by simp; omega)]

/-- The three facts needed for the frame-effect claims: writing at most
the `bstart..bend` slice of a buffer preserves its length, its prefix
before `bstart`, and its suffix from `bend` on. -/
theorem writeAt_preserves (buf : List α) (bstart bend : Nat) (vals : List α)
    (hv : vals.length ≤ (sliceRs buf bstart bend).length) (hr : bstart ≤ bend) :
    (writeAt buf bstart vals).length = buf.length ∧
    (writeAt buf bstart vals).take bstart = buf.take bstart ∧
    (writeAt buf bstart vals).drop bend = buf.drop bend := by
  cases hvals : vals with
  | nil => simp [writeAt_nil]
  | cons v vs =>
    rw [← hvals]
    rw [sliceRs_length] at hv
    have hlen : 1 ≤ vals.length := by rw [hvals]; simp
    have h1 : bstart + vals.length ≤ buf.length := by omega
    have h2 : bstart + vals.length ≤ bend := by omega
    refine ⟨writeAt_length _ _ _ h1, writeAt_take _ _ _ (by omega), ?_⟩
    have h3 := writeAt_drop buf bstart vals (by omega)
    have h4 : bend = (bstart + vals.length) + (bend - (bstart + vals.length)) := by omega
    rw [h4, ← List.drop_drop, h3, List.drop_drop]

theorem chunksExactAux_length (k : Nat) (hk : 1 ≤ k) :
    ∀ fuel (l : List τ), l.length ≤ fuel →
      (chunksExactAux k fuel l).length = l.length / k := by
  intro fuel
  induction fuel with
  | zero =>
    intro l hl
    have : l.length = 0 := by omega
    simp [chunksExactAux, this, Nat.zero_div]
  | succ fuel ih =>
    intro l hl
    by_cases hc : k ≤ l.length
    · have hd : (l.drop k).length ≤ fuel := by simp; omega
      simp only [chunksExactAux, if_pos (And.intro hk hc), List.length_cons, ih _ hd]
      rw [List.length_drop]
      rw [Nat.div_eq_sub_div (by omega) hc]
    · rw [chunksExactAux, if_neg (by omega)]
      rw [List.length_nil, Nat.div_eq_of_lt (by omega)]

theorem chunksExact_length (k : Nat) (hk : 1 ≤ k) (l : List τ) :
    (chunksExact k l).length = l.length / k :=
  chunksExactAux_length k hk l.length l le_rfl

theorem chunksExactAux_one (d : τ) :
    ∀ fuel (l : List τ), l.length ≤ fuel →
      (chunksExactAux 1 fuel l).map (fun c => c.getD 0 d) = l := by
  intro fuel
  induction fuel with
  | zero =>
    intro l hl
    have : l = [] := by
      cases l
      · rfl
      · simp at hl
    simp [this, chunksExactAux]
  | succ fuel ih =>
    intro l hl
    cases l with
    | nil => simp [chunksExactAux]
    | cons x xs =>
      have hx : 1 ≤ (x :: xs).length := by simp
      rw [chunksExactAux, if_pos (And.intro le_rfl hx)]
      simp only [List.map_cons, List.take_succ_cons, List.take_zero,
        List.drop_succ_cons, List.drop_zero]
      rw [ih xs (by simp at hl ⊢; omega)]
      simp

theorem chunksExact_one_map (d : τ) (f : τ → α) (l : List τ) :
    (chunksExact 1 l).map (fun c => f (c.getD 0 d)) = l.map f := by
  have h := chunksExactAux_one d l.length l le_rfl
  calc (chunksExact 1 l).map (fun c => f (c.getD 0 d))
      = ((chunksExact 1 l).map (fun c => c.getD 0 d)).map f := by
        rw [List.map_map]
        rfl
    _ = l.map f := by rw [chunksExact, h]

theorem zipChannels_of_le (g : Nat → List α → List α) (channels : Nat) :
    ∀ i (l : List (List α)), channels ≤ i → zipChannels g channels i l = l := by
  intro i l
  induction l generalizing i with
  | nil => intro; rfl
  | cons b rest ih =>
    intro h
    rw [zipChannels, if_neg (by omega), ih (i + 1) (by omega)]

theorem fill_buffers_interleaved_eq_general [Inhabited τ] (buffers : List (List α))
    (bstart bend start_frame channels : Nat) (data : List τ) (convert : τ → α)
    (hch : 1 ≤ channels) (hbuf : 1 ≤ buffers.length) (hr : bstart ≤ bend)
    (hlen : ∀ buf ∈ buffers, bend ≤ List.length buf)
    (hdata : (start_frame + (bend - bstart)) * channels ≤ data.length) :
    fill_buffers_interleaved buffers bstart bend start_frame channels data convert
      = fillInterleavedGeneral buffers bstart bend start_frame channels data convert := by
  by_cases h1 : channels = 1
  · subst h1
    cases buffers with
    | nil => simp at hbuf
    | cons b0 rest =>
      simp only [fill_buffers_interleaved, fillInterleavedGeneral, writeStrided,
        zipChannels, if_true]
      rw [zipChannels_of_le _ _ _ _ (by omega : 1 ≤ 0 + 1)]
      rw [if_pos (by omega : 0 < 1)]
      rw [chunksExact_one_map]
      rw [Nat.mul_one, Nat.mul_one]
  · by_cases h2 : channels = 2 ∧ 2 ≤ buffers.length
    · obtain ⟨hc2, hb2⟩ := h2
      subst hc2
      cases buffers with
      | nil => simp at hb2
      | cons b0 rest0 =>
        cases rest0 with
        | nil => simp at hb2
        | cons b1 rest =>
          have hb0 : bend ≤ b0.length := hlen b0 (by simp)
          have hb1 : bend ≤ b1.length := hlen b1 (by simp)
          have hsl0 : (sliceRs b0 bstart bend).length = bend - bstart := by
            rw [sliceRs_length]; omega
          have hsl1 : (sliceRs b1 bstart bend).length = bend - bstart := by
            rw [sliceRs_length]; omega
          have hsrc : (sliceRs data (start_frame * 2)
              ((start_frame + (bend - bstart)) * 2)).length = (bend - bstart) * 2 := by
            rw [sliceRs_length]
            have : (start_frame + (bend - bstart)) * 2 ≤ data.length := hdata
            omega
          have hchk : (chunksExact 2 (sliceRs data (start_frame * 2)
              ((start_frame + (bend - bstart)) * 2))).length = bend - bstart := by
            rw [chunksExact_length 2 (by omega), hsrc]
            omega
          simp only [fill_buffers_interleaved, fillInterleavedGeneral, writeStrided,
            zipChannels]
          rw [if_neg (by omega : ¬ (2 : Nat) = 1)]
          rw [if_pos (And.intro trivial (by simp : 2 ≤ (b0 :: b1 :: rest).length))]
          rw [zipChannels_of_le _ _ _ _ (by omega : 2 ≤ 0 + 1 + 1)]
          rw [if_pos (by omega : 0 < 2), if_pos (by omega : 0 + 1 < 2)]
          rw [hsl0, hsl1, hchk]
          rw [Nat.min_self, Nat.min_self]
    · rw [fill_buffers_interleaved.eq_def]
      rw [if_neg h1, if_neg h2]

theorem fill_buffers_deinterleaved_eq_general (buffers : List (List α))
    (bstart bend start_frame : Nat) (data : List (List τ)) (convert : τ → α)
    (hr : bstart ≤ bend)
    (hlen : ∀ buf ∈ buffers, bend ≤ List.length buf)
    (hdata : ∀ ch ∈ data, start_frame + (bend - bstart) ≤ List.length ch) :
    fill_buffers_deinterleaved buffers bstart bend start_frame data convert
      = fillDeinterleavedGeneral buffers bstart bend start_frame data convert := by
  by_cases h : data.length = 2 ∧ 2 ≤ buffers.length
  · obtain ⟨hd2, hb2⟩ := h
    cases data with
    | nil => simp at hd2
    | cons d0 dl =>
      cases dl with
      | nil => simp at hd2
      | cons d1 dtail =>
        have htail : dtail = [] := by simpa using hd2
        subst htail
        cases buffers with
        | nil => simp at hb2
        | cons b0 rest0 =>
          cases rest0 with
          | nil => simp at hb2
          | cons b1 rest =>
            have hb0 : bend ≤ b0.length := hlen b0 (by simp)
            have hb1 : bend ≤ b1.length := hlen b1 (by simp)
            have hd0 : start_frame + (bend - bstart) ≤ d0.length := hdata d0 (by simp)
            have hd1 : start_frame + (bend - bstart) ≤ d1.length := hdata d1 (by simp)
            have hsl0 : (sliceRs b0 bstart bend).length = bend - bstart := by
              rw [sliceRs_length]; omega
            have hsl1 : (sliceRs b1 bstart bend).length = bend - bstart := by
              rw [sliceRs_length]; omega
            have hs0 : (sliceRs d0 start_frame (start_frame + (bend - bstart))).length
                = bend - bstart := by
              rw [sliceRs_length]; omega
            have hs1 : (sliceRs d1 start_frame (start_frame + (bend - bstart))).length
                = bend - bstart := by
              rw [sliceRs_length]; omega
            simp only [fill_buffers_deinterleaved, fillDeinterleavedGeneral]
            rw [if_pos (And.intro (by simp) (by simp : 2 ≤ (b0 :: b1 :: rest).length))]
            simp only [List.zipWith_cons_cons, List.zipWith_nil_right, List.nil_append]
            rw [hsl0, hsl1, hs0, hs1]
            rw [Nat.min_self, Nat.min_self, Nat.min_self]
            simp
  · rw [fill_buffers_deinterleaved.eq_def, if_neg h]

theorem zipChannels_length (g : Nat → List α → List α) (channels : Nat) :
    ∀ (i : Nat) (l : List (List α)), (zipChannels g channels i l).length = l.length := by
  intro i l
  induction l generalizing i with
  | nil => rfl
  | cons b rest ih => simp [zipChannels, ih]

theorem zipChannels_getD (g : Nat → List α → List α) (channels : Nat) :
    ∀ (i : Nat) (l : List (List α)) (j : Nat),
      (zipChannels g channels i l).getD j [] =
        if i + j < channels ∧ j < l.length then g (i + j) (l.getD j [])
        else l.getD j [] := by
  intro i l
  induction l generalizing i with
  | nil =>
    intro j
    simp [zipChannels]
  | cons b rest ih =>
    intro j
    cases j with
    | zero =>
      simp only [zipChannels, List.getD_cons_zero, Nat.add_zero, List.length_cons]
      by_cases hi : i < channels
      · rw [if_pos hi, if_pos (And.intro hi (by omega))]
      · rw [if_neg hi, if_neg (by omega)]
    | succ j =>
      simp only [zipChannels, List.getD_cons_succ, List.length_cons]
      rw [ih (i + 1) j]
      by_cases hc : i + 1 + j < channels ∧ j < rest.length
      · rw [if_pos hc, if_pos (by omega)]
        congr 1
        omega
      · rw [if_neg hc, if_neg (by omega)]

theorem zipChannels_id (g : Nat → List α → List α) (channels : Nat)
    (hg : ∀ i buf, g i buf = buf) :
    ∀ (i : Nat) (l : List (List α)), zipChannels g channels i l = l := by
  intro i l
  induction l generalizing i with
  | nil => rfl
  | cons b rest ih => simp [zipChannels, hg, ih]

theorem zipWithFill_length (f : List α → List τ → List α) :
    ∀ (bs : List (List α)) (ds : List (List τ)),
      (List.zipWith f bs ds ++ bs.drop (min bs.length ds.length)).length
        = bs.length := by
  intro bs
  induction bs with
  | nil => intro ds; simp
  | cons b rest ih =>
    intro ds
    cases ds with
    | nil => simp
    | cons d dl =>
      simp only [List.zipWith_cons_cons, List.length_cons]
      have := ih dl
      simp only [List.length_cons, Nat.succ_min_succ, List.drop_succ_cons,
        List.cons_append, List.length_cons] at *
      omega

theorem zipWithFill_getD (f : List α → List τ → List α) :
    ∀ (bs : List (List α)) (ds : List (List τ)) (j : Nat),
      (List.zipWith f bs ds ++ bs.drop (min bs.length ds.length)).getD j []
        = if j < min bs.length ds.length then f (bs.getD j []) (ds.getD j [])
          else bs.getD j [] := by
  intro bs
  induction bs with
  | nil =>
    intro ds j
    simp
  | cons b rest ih =>
    intro ds j
    cases ds with
    | nil => simp
    | cons d dl =>
      simp only [List.zipWith_cons_cons, List.length_cons, Nat.succ_min_succ,
        List.drop_succ_cons, List.cons_append]
      cases j with
      | zero => simp
      | succ j =>
        simp only [List.getD_cons_succ]
        rw [ih dl j]
        by_cases hc : j < min rest.length dl.length
        · rw [if_pos hc, if_pos (by omega)]
        · rw [if_neg hc, if_neg (by omega)]

/-- Shape of `fill_buffers_interleaved`: every output buffer is the
corresponding input buffer overwritten from `bstart` with at most
`(sliceRs buf bstart bend).length` values; buffers at channel indices
`≥ channels` and calls with an empty range receive no values at all. -/
theorem fill_buffers_interleaved_shape [Inhabited τ] (buffers : List (List α))
    (bstart bend start_frame channels : Nat) (data : List τ) (convert : τ → α)
    (i : Nat) :
    (fill_buffers_interleaved buffers bstart bend start_frame channels data
        convert).length = buffers.length ∧
    ∃ vals : List α,
      vals.length ≤ (sliceRs (buffers.getD i []) bstart bend).length ∧
      (fill_buffers_interleaved buffers bstart bend start_frame channels data
          convert).getD i [] = writeAt (buffers.getD i []) bstart vals ∧
      (channels ≤ i → vals = []) ∧ (bstart = bend → vals = []) := by
  by_cases h1 : channels = 1
  · subst h1
    cases buffers with
    | nil =>
      refine ⟨rfl, [], by simp, ?_, fun _ => rfl, fun _ => rfl⟩
      simp [fill_buffers_interleaved, writeAt]
    | cons b0 rest =>
      have hopen : fill_buffers_interleaved (b0 :: rest) bstart bend start_frame
          1 data convert =
          writeAt b0 bstart
            (((sliceRs data start_frame (start_frame + (bend - bstart))).map
              convert).take (sliceRs b0 bstart bend).length) :: rest := by
        simp only [fill_buffers_interleaved, if_true]
      rw [hopen]
      cases i with
      | zero =>
        refine ⟨by simp,
          ((sliceRs data start_frame (start_frame + (bend - bstart))).map
            convert).take (sliceRs b0 bstart bend).length,
          ?_, by simp, by omega, ?_⟩
        · rw [List.length_take]
          simp only [List.getD_cons_zero]
          omega
        · intro he
          subst he
          simp [Nat.sub_self, sliceRs_self_empty]
      | succ i =>
        refine ⟨by simp, [], by simp, ?_, fun _ => rfl, fun _ => rfl⟩
        rw [writeAt_nil]
        simp
  · by_cases h2 : channels = 2 ∧ 2 ≤ buffers.length
    · obtain ⟨hc2, hb2⟩ := h2
      subst hc2
      cases buffers with
      | nil => simp at hb2
      | cons b0 rest0 =>
        cases rest0 with
        | nil => simp at hb2
        | cons b1 rest =>
          have hopen : fill_buffers_interleaved (b0 :: b1 :: rest) bstart bend
              start_frame 2 data convert =
              writeAt b0 bstart ((List.map (fun c => convert (c.getD 0 default))
                  (chunksExact 2 (sliceRs data (start_frame * 2)
                    ((start_frame + (bend - bstart)) * 2)))).take
                (min (chunksExact 2 (sliceRs data (start_frame * 2)
                    ((start_frame + (bend - bstart)) * 2))).length
                  (min (sliceRs b0 bstart bend).length
                    (sliceRs b1 bstart bend).length))) ::
              writeAt b1 bstart ((List.map (fun c => convert (c.getD 1 default))
                  (chunksExact 2 (sliceRs data (start_frame * 2)
                    ((start_frame + (bend - bstart)) * 2)))).take
                (min (chunksExact 2 (sliceRs data (start_frame * 2)
                    ((start_frame + (bend - bstart)) * 2))).length
                  (min (sliceRs b0 bstart bend).length
                    (sliceRs b1 bstart bend).length))) :: rest := by
            rw [fill_buffers_interleaved]
            rw [if_neg (by omega : ¬ (2 : Nat) = 1)]
            rw [if_pos (And.intro rfl (by simp : 2 ≤ (b0 :: b1 :: rest).length))]
          rw [hopen]
          cases i with
          | zero =>
            refine ⟨by simp,
              (List.map (fun c => convert (c.getD 0 default))
                  (chunksExact 2 (sliceRs data (start_frame * 2)
                    ((start_frame + (bend - bstart)) * 2)))).take
                (min (chunksExact 2 (sliceRs data (start_frame * 2)
                    ((start_frame + (bend - bstart)) * 2))).length
                  (min (sliceRs b0 bstart bend).length
                    (sliceRs b1 bstart bend).length)),
              ?_, by simp, by omega, ?_⟩
            · rw [List.length_take]
              simp only [List.getD_cons_zero]
              omega
            · intro he
              subst he
              simp [Nat.sub_self, sliceRs_self_empty, chunksExact, chunksExactAux]
          | succ i =>
            cases i with
            | zero =>
              refine ⟨by simp,
                (List.map (fun c => convert (c.getD 1 default))
                    (chunksExact 2 (sliceRs data (start_frame * 2)
                      ((start_frame + (bend - bstart)) * 2)))).take
                  (min (chunksExact 2 (sliceRs data (start_frame * 2)
                      ((start_frame + (bend - bstart)) * 2))).length
                    (min (sliceRs b0 bstart bend).length
                      (sliceRs b1 bstart bend).length)),
                ?_, by simp, by omega, ?_⟩
              · rw [List.length_take]
                simp only [List.getD_cons_succ, List.getD_cons_zero]
                omega
              · intro he
                subst he
                simp [Nat.sub_self, sliceRs_self_empty, chunksExact, chunksExactAux]
            | succ i =>
              refine ⟨by simp, [], by simp, ?_, fun _ => rfl, fun _ => rfl⟩
              rw [writeAt_nil]
              simp
    · have hopen : fill_buffers_interleaved buffers bstart bend start_frame
          channels data convert =
          fillInterleavedGeneral buffers bstart bend start_frame channels data
            convert := by
        rw [fill_buffers_interleaved.eq_def, if_neg h1, if_neg h2]
      rw [hopen, fillInterleavedGeneral]
      constructor
      · exact zipChannels_length _ _ _ _
      · rw [zipChannels_getD]
        by_cases hc : 0 + i < channels ∧ i < buffers.length
        · rw [if_pos hc, writeStrided]
          refine ⟨(((chunksExact channels (sliceRs data (start_frame * channels)
              ((start_frame + (bend - bstart)) * channels))).map
                (fun c => convert (c.getD (0 + i) default))).take
              (sliceRs (buffers.getD i []) bstart bend).length),
            List.length_take_le _ _, rfl, by omega, ?_⟩
          intro he
          subst he
          simp [Nat.sub_self, sliceRs_self_empty, chunksExact, chunksExactAux]
        · rw [if_neg hc]
          exact ⟨[], by simp, (writeAt_nil _ _).symm, fun _ => rfl, fun _ => rfl⟩

/-- Shape of `fill_buffers_deinterleaved`, as for the interleaved case;
the channel count is the number of source channels `data.length`. -/
theorem fill_buffers_deinterleaved_shape (buffers : List (List α))
    (bstart bend start_frame : Nat) (data : List (List τ)) (convert : τ → α)
    (i : Nat) :
    (fill_buffers_deinterleaved buffers bstart bend start_frame data
        convert).length = buffers.length ∧
    ∃ vals : List α,
      vals.length ≤ (sliceRs (buffers.getD i []) bstart bend).length ∧
      (fill_buffers_deinterleaved buffers bstart bend start_frame data
          convert).getD i [] = writeAt (buffers.getD i []) bstart vals ∧
      (data.length ≤ i → vals = []) ∧ (bstart = bend → vals = []) := by
  by_cases h : data.length = 2 ∧ 2 ≤ buffers.length
  · obtain ⟨hd2, hb2⟩ := h
    cases data with
    | nil => simp at hd2
    | cons d0 dl =>
      cases dl with
      | nil => simp at hd2
      | cons d1 dtail =>
        have htail : dtail = [] := by simpa using hd2
        subst htail
        cases buffers with
        | nil => simp at hb2
        | cons b0 rest0 =>
          cases rest0 with
          | nil => simp at hb2
          | cons b1 rest =>
            have hopen : fill_buffers_deinterleaved (b0 :: b1 :: rest) bstart bend
                start_frame (d0 :: d1 :: []) convert =
                writeAt b0 bstart
                    (((sliceRs d0 start_frame (start_frame + (bend - bstart))).map
                      convert).take
                    (min (bend - bstart)
                      (min (min (sliceRs b0 bstart bend).length
                          (sliceRs d0 start_frame
                            (start_frame + (bend - bstart))).length)
                        (min (sliceRs b1 bstart bend).length
                          (sliceRs d1 start_frame
                            (start_frame + (bend - bstart))).length)))) ::
                writeAt b1 bstart
                    (((sliceRs d1 start_frame (start_frame + (bend - bstart))).map
                      convert).take
                    (min (bend - bstart)
                      (min (min (sliceRs b0 bstart bend).length
                          (sliceRs d0 start_frame
                            (start_frame + (bend - bstart))).length)
                        (min (sliceRs b1 bstart bend).length
                          (sliceRs d1 start_frame
                            (start_frame + (bend - bstart))).length)))) :: rest := by
              rw [fill_buffers_deinterleaved]
              rw [if_pos (And.intro (by simp)
                (by simp : 2 ≤ (b0 :: b1 :: rest).length))]
            rw [hopen]
            cases i with
            | zero =>
              refine ⟨by simp,
                ((sliceRs d0 start_frame (start_frame + (bend - bstart))).map
                  convert).take
                  (min (bend - bstart)
                    (min (min (sliceRs b0 bstart bend).length
                        (sliceRs d0 start_frame
                          (start_frame + (bend - bstart))).length)
                      (min (sliceRs b1 bstart bend).length
                        (sliceRs d1 start_frame
                          (start_frame + (bend - bstart))).length))),
                ?_, rfl, by intro hc; simp at hc, ?_⟩
              · rw [List.length_take]
                simp only [List.getD_cons_zero]
                omega
              · intro he
                subst he
                simp [Nat.sub_self, sliceRs_self_empty]
            | succ i =>
              cases i with
              | zero =>
                refine ⟨by simp,
                  ((sliceRs d1 start_frame (start_frame + (bend - bstart))).map
                    convert).take
                    (min (bend - bstart)
                      (min (min (sliceRs b0 bstart bend).length
                          (sliceRs d0 start_frame
                            (start_frame + (bend - bstart))).length)
                        (min (sliceRs b1 bstart bend).length
                          (sliceRs d1 start_frame
                            (start_frame + (bend - bstart))).length))),
                  ?_, rfl, by intro hc; simp at hc, ?_⟩
                · rw [List.length_take]
                  simp only [List.getD_cons_succ, List.getD_cons_zero]
                  omega
                · intro he
                  subst he
                  simp [Nat.sub_self, sliceRs_self_empty]
              | succ i =>
                refine ⟨by simp, [], by simp, ?_, fun _ => rfl, fun _ => rfl⟩
                rw [writeAt_nil]
                simp
  · have hopen : fill_buffers_deinterleaved buffers bstart bend start_frame data
        convert =
        fillDeinterleavedGeneral buffers bstart bend start_frame data convert := by
      rw [fill_buffers_deinterleaved.eq_def, if_neg h]
    rw [hopen, fillDeinterleavedGeneral]
    constructor
    · exact zipWithFill_length _ _ _
    · rw [zipWithFill_getD]
      by_cases hc : i < min buffers.length data.length
      · rw [if_pos hc]
        refine ⟨_, List.length_take_le _ _, rfl, by omega, ?_⟩
        intro he
        subst he
        simp [Nat.sub_self, sliceRs_self_empty]
      · rw [if_neg hc]
        exact ⟨[], by simp, (writeAt_nil _ _).symm, fun _ => rfl, fun _ => rfl⟩

/-- Shape of `fill_buffers_deinterleaved_f32`: here the written values
are exactly the source slice, so the bound needs the fill precondition
`bend ≤ buf.length` on the written buffers. -/
theorem fill_buffers_deinterleaved_f32_shape (buffers : List (List α))
    (bstart bend start_frame : Nat) (data : List (List α))
    (hr : bstart ≤ bend)
    (hlen : ∀ buf ∈ buffers, bend ≤ List.length buf)
    (hdata : ∀ ch ∈ data, start_frame + (bend - bstart) ≤ List.length ch)
    (i : Nat) :
    (fill_buffers_deinterleaved_f32 buffers bstart bend start_frame
        data).length = buffers.length ∧
    ∃ vals : List α,
      vals.length ≤ (sliceRs (buffers.getD i []) bstart bend).length ∧
      (fill_buffers_deinterleaved_f32 buffers bstart bend start_frame
          data).getD i [] = writeAt (buffers.getD i []) bstart vals ∧
      (data.length ≤ i → vals = []) ∧ (bstart = bend → vals = []) := by
  rw [fill_buffers_deinterleaved_f32]
  constructor
  · exact zipWithFill_length _ _ _
  · rw [zipWithFill_getD]
    by_cases hc : i < min buffers.length data.length
    · rw [if_pos hc]
      refine ⟨sliceRs (data.getD i []) start_frame (start_frame + (bend - bstart)),
        ?_, rfl, by omega, ?_⟩
      · have hbuf : bend ≤ (buffers.getD i []).length := by
          apply hlen
          have hi : i < buffers.length := by omega
          rw [List.getD_eq_getElem?_getD, List.getElem?_eq_getElem hi]
          exact List.getElem_mem hi
        have hch : start_frame + (bend - bstart) ≤ (data.getD i []).length := by
          apply hdata
          have hi : i < data.length := by omega
          rw [List.getD_eq_getElem?_getD, List.getElem?_eq_getElem hi]
          exact List.getElem_mem hi
        rw [sliceRs_length, sliceRs_length]
        omega
      · intro he
        subst he
        simp [Nat.sub_self, sliceRs_self_empty]
    · rw [if_neg hc]
      exact ⟨[], by simp, (writeAt_nil _ _).symm, fun _ => rfl, fun _ => rfl⟩

theorem initConvolversAux_spec (γ : Type) (ops : ConvOps γ) (frames : Nat)
    (r : SampleResourceF32Model) (hr : r.chans ≠ []) :
    ∀ (n i : Nat) (convs : List γ), i + n ≤ convs.length →
    ∃ convs', initConvolversAux γ ops frames r n i convs = some convs' ∧
      convs'.length = convs.length ∧
      (∀ j, j < i ∨ i + n ≤ j → convs'.get? j = convs.get? j) ∧
      (∀ j, i ≤ j → j < i + n →
        convs'.get? j = (convs.get? j).map
          (ops.init frames (((r.channel j).or (r.channel 0)).getD []))) := by
  intro n
  induction n with
  | zero =>
    intro i convs hlen
    exact ⟨convs, rfl, rfl, fun j _ => rfl, fun j h1 h2 => by omega⟩
  | succ n ih =>
    intro i convs hlen
    have hch0 : ∃ c0, r.channel 0 = some c0 := by
      cases hc : r.chans with
      | nil => exact absurd hc hr
      | cons c rest => exact ⟨c, by simp [SampleResourceF32Model.channel, hc]⟩
    obtain ⟨c0, hc0⟩ := hch0
    have hchi : ∃ ci, (r.channel i).or (r.channel 0) = some ci := by
      cases hci : r.channel i with
      | none => exact ⟨c0, by simp [hci, hc0]⟩
      | some c => exact ⟨c, by simp [hci]⟩
    obtain ⟨ci, hci⟩ := hchi
    have hi : i < convs.length := by omega
    obtain ⟨convs', heq, hlen', huntouched, hinit⟩ :=
      ih (i + 1) (convs.set i (ops.init frames ci (convs.get ⟨i, hi⟩)))
        (by rw [List.length_set]; omega)
    refine ⟨convs', ?_, by rwa [List.length_set] at hlen', ?_, ?_⟩
    · rw [initConvolversAux]
      simp only [hci]
      rw [dif_pos hi]
      exact heq
    · intro j hj
      rw [huntouched j (by omega)]
      rw [List.get?_set]
      rw [if_neg (by omega)]
    · intro j h1 h2
      by_cases hji : j = i
      · subst hji
        rw [huntouched j (by omega)]
        rw [List.get?_set, if_pos rfl]
        have hjl : j < convs.length := hi
        rw [List.get?_eq_get hjl]
        simp only [Option.map_some]
        have hgd : ((r.channel j).or (r.channel 0)).getD [] = ci := by
          rw [hci]
          rfl
        rw [hgd]
        rfl
      · rw [hinit j (by omega) (by omega)]
        rw [List.get?_set, if_neg (by omega)]

theorem convolveChannels_isSome (γ : Type) (ops : ConvOps γ) (gains : List ℚ) :
    ∀ (inputs : List (List ℚ)) (i : Nat) (convs : List γ) (outs : List (List ℚ)),
      i + inputs.length ≤ convs.length → i + inputs.length ≤ outs.length →
      (convolveChannels γ ops gains inputs i convs outs).isSome := by
  intro inputs
  induction inputs with
  | nil => intro i convs outs h1 h2; simp [convolveChannels]
  | cons input rest ih =>
    intro i convs outs h1 h2
    simp only [List.length_cons] at h1 h2
    have hi : i < convs.length := by omega
    rw [convolveChannels, dif_pos hi, if_pos (by omega : i < outs.length)]
    apply ih
    · rw [List.length_set]; omega
    · rw [List.length_set]; omega

theorem applyPatch_paused (CHANNELS : Nat) (γ : Type) (ops : ConvOps γ)
    (frames : Nat) (acc : ConvolutionProcessor γ × Bool × Bool)
    (p : ConvolutionNodePatch) (res : ConvolutionProcessor γ × Bool × Bool)
    (hp : p ≠ ConvolutionNodePatch.Paused false)
    (h : applyPatch CHANNELS γ ops frames acc p = some res) :
    res.1.params.paused = acc.1.params.paused := by
  cases p with
  | Mix m =>
    simp only [applyPatch] at h
    cases h
    rfl
  | FadeCurve c =>
    simp only [applyPatch] at h
    cases h
    rfl
  | WetGain g =>
    simp only [applyPatch] at h
    cases h
    rfl
  | ImpulseResponse ir =>
    cases ir with
    | none =>
      simp only [applyPatch] at h
      cases h
      rfl
    | some r =>
      simp only [applyPatch] at h
      cases hinit : initConvolvers γ ops frames r
          (max (min r.num_channels CHANNELS) CHANNELS) acc.1.convolvers with
      | none => rw [hinit] at h; cases h
      | some convs => rw [hinit] at h; cases h; rfl
  | Paused b =>
    cases b with
    | false => exact absurd rfl hp
    | true =>
      simp only [applyPatch] at h
      cases h
      rfl

theorem drainPatches_paused (CHANNELS : Nat) (γ : Type) (ops : ConvOps γ)
    (frames : Nat) :
    ∀ (patches : List ConvolutionNodePatch)
      (acc res : ConvolutionProcessor γ × Bool × Bool),
      (∀ p ∈ patches, p ≠ ConvolutionNodePatch.Paused false) →
      List.foldlM (applyPatch CHANNELS γ ops frames) acc patches = some res →
      res.1.params.paused = acc.1.params.paused := by
  intro patches
  induction patches with
  | nil =>
    intro acc res _ h
    cases h
    rfl
  | cons p rest ih =>
    intro acc res hall h
    rw [List.foldlM_cons] at h
    cases happ : applyPatch CHANNELS γ ops frames acc p with
    | none => rw [happ] at h; cases h
    | some acc' =>
      rw [happ] at h
      have h1 := ih acc' res (fun q hq => hall q (List.mem_cons_of_mem p hq)) h
      have h2 := applyPatch_paused CHANNELS γ ops frames acc p acc'
        (hall p (List.mem_cons_self p rest)) happ
      rw [h1, h2]

theorem drainPatches_nil (CHANNELS : Nat) (γ : Type) (ops : ConvOps γ)
    (frames : Nat) (st : ConvolutionProcessor γ) :
    drainPatches CHANNELS γ ops frames st [] = some (st, false, false) := rfl

/-- Draining a lone pause request only retargets the declicker and
records `will_pause`; the mirrored `paused` flag is untouched. -/
theorem drainPatches_pause (CHANNELS : Nat) (γ : Type) (ops : ConvOps γ)
    (frames : Nat) (st : ConvolutionProcessor γ) :
    drainPatches CHANNELS γ ops frames st [ConvolutionNodePatch.Paused true]
      = some ({ st with declick := st.declick.fade_to_enabled false }, true, false) := rfl

/-- Draining a lone resume request clears `paused` immediately and
retargets the declicker toward enabled. -/
theorem drainPatches_resume (CHANNELS : Nat) (γ : Type) (ops : ConvOps γ)
    (frames : Nat) (st : ConvolutionProcessor γ) :
    drainPatches CHANNELS γ ops frames st [ConvolutionNodePatch.Paused false]
      = some ({ st with params := { st.params with paused := false }
                        declick := st.declick.fade_to_enabled true }, false, false) := rfl

theorem process_of_paused (CHANNELS : Nat) (γ : Type) (ops : ConvOps γ)
    (st : ConvolutionProcessor γ) (patches : List ConvolutionNodePatch)
    (inputs outputs : List (List ℚ)) (frames : Nat) (step : ℚ)
    (st1 : ConvolutionProcessor γ) (wp irc : Bool)
    (hdrain : drainPatches CHANNELS γ ops frames st patches = some (st1, wp, irc))
    (hp : st1.params.paused = true) :
    process CHANNELS γ ops st patches inputs outputs frames step
      = some (st1, ProcessStatus.ClearAllOutputs, outputs) := by
  rw [process, hdrain]
  simp only [hp, if_true]

theorem process_of_bypass (CHANNELS : Nat) (γ : Type) (ops : ConvOps γ)
    (st : ConvolutionProcessor γ) (patches : List ConvolutionNodePatch)
    (inputs outputs : List (List ℚ)) (frames : Nat) (step : ℚ)
    (st1 : ConvolutionProcessor γ) (wp irc : Bool)
    (hdrain : drainPatches CHANNELS γ ops frames st patches = some (st1, wp, irc))
    (hp : st1.params.paused = false)
    (hir : st1.params.impulse_response = none) :
    process CHANNELS γ ops st patches inputs outputs frames step
      = some (st1, ProcessStatus.Bypass, outputs) := by
  rw [process, hdrain]
  simp only [hp, hir, if_false, Option.isNone_none, if_true, Bool.false_eq_true]

theorem process_main_shape (CHANNELS : Nat) (γ : Type) (ops : ConvOps γ)
    (st : ConvolutionProcessor γ) (patches : List ConvolutionNodePatch)
    (inputs outputs : List (List ℚ)) (frames : Nat) (step : ℚ)
    (st1 : ConvolutionProcessor γ) (wp irc : Bool)
    (hdrain : drainPatches CHANNELS γ ops frames st patches = some (st1, wp, irc))
    (hp : st1.params.paused = false)
    (hir : st1.params.impulse_response.isSome)
    (res : ConvolutionProcessor γ × ProcessStatus × List (List ℚ))
    (h : process CHANNELS γ ops st patches inputs outputs frames step = some res) :
    (∃ mask, res.2.1 = ProcessStatus.OutputsModified mask) ∧
    res.1.params.paused = (if wp then true else st1.params.paused) := by
  obtain ⟨v, hv⟩ := Option.isSome_iff_exists.mp hir
  rw [process, hdrain] at h
  simp only [hp, Bool.false_eq_true, if_false, hv, Option.isNone_some] at h
  split at h
  · exact Option.noConfusion h
  · split at h
    · exact Option.noConfusion h
    · rw [Option.some_inj] at h
      subst h
      constructor
      · exact ⟨_, rfl⟩
      · cases wp with
        | true => cases irc <;> simp
        | false => cases irc <;> simp

theorem eq_of_getD (xs ys : List (List α)) (hlen : xs.length = ys.length)
    (h : ∀ i, xs.getD i [] = ys.getD i []) : xs = ys := by
  apply List.ext_getElem hlen
  intro i h1 h2
  have hi := h i
  rw [List.getD_eq_getElem?_getD, List.getD_eq_getElem?_getD,
    List.getElem?_eq_getElem h1, List.getElem?_eq_getElem h2] at hi
  simpa using hi

/-- The frame-effect facts, derived from a shape decomposition. -/
theorem preserves_of_shape (buffers out : List (List α)) (bstart bend k : Nat)
    (hr : bstart ≤ bend)
    (hshape : ∀ i, out.length = buffers.length ∧
      ∃ vals : List α,
        vals.length ≤ (sliceRs (buffers.getD i []) bstart bend).length ∧
        out.getD i [] = writeAt (buffers.getD i []) bstart vals ∧
        (k ≤ i → vals = []) ∧ (bstart = bend → vals = [])) :
    out.length = buffers.length ∧
    (∀ i, k ≤ i → out.getD i [] = buffers.getD i []) ∧
    (∀ i, (out.getD i []).length = (buffers.getD i []).length ∧
      (out.getD i []).take bstart = (buffers.getD i []).take bstart ∧
      (out.getD i []).drop bend = (buffers.getD i []).drop bend) ∧
    (bstart = bend → out = buffers) := by
  refine ⟨(hshape 0).1, ?_, ?_, ?_⟩
  · intro i hk
    obtain ⟨_, vals, _, heq, hquiet, _⟩ := hshape i
    rw [heq, hquiet hk, writeAt_nil]
  · intro i
    obtain ⟨_, vals, hv, heq, _, _⟩ := hshape i
    rw [heq]
    exact writeAt_preserves _ _ _ _ hv hr
  · intro he
    apply eq_of_getD _ _ (hshape 0).1
    intro i
    obtain ⟨_, vals, _, heq, _, hempty⟩ := hshape i
    rw [heq, hempty he, writeAt_nil]

/-- C1 (counterexample): the claim "`pcm_i16_to_f32(s)` is bit-exactly
equal to `s / 32767.0`" is false on the code: the code multiplies by the
correctly rounded reciprocal `1.0 / 32767.0`, and at `s = 513` the
product rounds (ties-to-even) to a different binary32 value than the
correctly rounded quotient `513 / 32767.0`. -/
theorem claim_C1_counterexample :
    pcm_i16_to_f32 513 ≠ pcm_i16_spec_formula 513 := by decide

/-- C1 (amended): the signed conversion is the binary32 product of the
sample with the correctly rounded constant `1.0 / 32767.0` (not the
correctly rounded quotient `s / 32767.0`, from which it differs at some
samples); the unsigned conversion is bit-exactly
`s * (2.0/65535.0) - 1.0` as the specification states; and 32-bit float
source samples pass through the fill helpers unchanged: the filled range
of a destination buffer equals the corresponding source slice, both for
a mono interleaved f32 resource and for every channel of a
de-interleaved f32 resource. -/
theorem claim_C1_amended :
    (∀ s : ℤ, pcm_i16_to_f32 s = f32Mul (mkRat s 1) (roundF32 (mkRat 1 32767))) ∧
    (∀ s : ℤ, pcm_u16_to_f32 s = pcm_u16_spec_formula s) ∧
    (∀ (data : List ℚ) (b0 : List ℚ) (rest : List (List ℚ)) (bstart bend start_frame : Nat),
      bstart ≤ bend → bend ≤ b0.length →
      start_frame + (bend - bstart) ≤ data.length →
      sliceRs ((fill_buffers_interleaved (b0 :: rest) bstart bend start_frame 1
          data (fun s => s)).getD 0 []) bstart bend
        = sliceRs data start_frame (start_frame + (bend - bstart))) ∧
    (∀ (buffers : List (List ℚ)) (bstart bend start_frame : Nat)
        (data : List (List ℚ)) (i : Nat),
      bstart ≤ bend →
      (∀ buf ∈ buffers, bend ≤ List.length buf) →
      (∀ ch ∈ data, start_frame + (bend - bstart) ≤ List.length ch) →
      i < buffers.length → i < data.length →
      sliceRs ((fill_buffers_deinterleaved_f32 buffers bstart bend start_frame
          data).getD i []) bstart bend
        = sliceRs (data.getD i []) start_frame (start_frame + (bend - bstart))) := by
  refine ⟨fun s => rfl, fun s => rfl, ?_, ?_⟩
  · intro data b0 rest bstart bend start_frame hr hb hd
    have hopen : fill_buffers_interleaved (b0 :: rest) bstart bend start_frame
        1 data (fun s => s) =
        writeAt b0 bstart
          (((sliceRs data start_frame (start_frame + (bend - bstart))).map
            (fun s => s)).take (sliceRs b0 bstart bend).length) :: rest := by
      simp only [fill_buffers_interleaved, if_true]
    rw [hopen]
    simp only [List.getD_cons_zero]
    have hslen : (sliceRs data start_frame (start_frame + (bend - bstart))).length
        = bend - bstart := by
      rw [sliceRs_length]; omega
    have hbl : (sliceRs b0 bstart bend).length = bend - bstart := by
      rw [sliceRs_length]; omega
    rw [List.map_id', hbl, List.take_of_length_le (by omega)]
    have hw := writeAt_sliceRs b0 bstart
      (sliceRs data start_frame (start_frame + (bend - bstart))) (by omega)
    rw [hslen] at hw
    have hbe : bstart + (bend - bstart) = bend := by omega
    rw [hbe] at hw
    exact hw
  · intro buffers bstart bend start_frame data i hr hlen hdata hib hid
    rw [fill_buffers_deinterleaved_f32]
    rw [zipWithFill_getD]
    rw [if_pos (by omega : i < min buffers.length data.length)]
    have hbuf : bend ≤ (buffers.getD i []).length := by
      apply hlen
      rw [List.getD_eq_getElem?_getD, List.getElem?_eq_getElem hib]
      exact List.getElem_mem hib
    have hch : start_frame + (bend - bstart) ≤ (data.getD i []).length := by
      apply hdata
      rw [List.getD_eq_getElem?_getD, List.getElem?_eq_getElem hid]
      exact List.getElem_mem hid
    have hslen : (sliceRs (data.getD i []) start_frame
        (start_frame + (bend - bstart))).length = bend - bstart := by
      rw [sliceRs_length]; omega
    have hw := writeAt_sliceRs (buffers.getD i []) bstart
      (sliceRs (data.getD i []) start_frame (start_frame + (bend - bstart)))
      (by omega)
    rw [hslen] at hw
    have hbe : bstart + (bend - bstart) = bend := by omega
    rw [hbe] at hw
    exact hw

/-- C1 (witness): the amended claim at concrete inputs. -/
theorem claim_C1_amended_witness :
    pcm_u16_to_f32 700 = pcm_u16_spec_formula 700 ∧
    sliceRs ((fill_buffers_deinterleaved_f32 [[0, 0, 0]] 1 3 0
        [[5, 6, 7]]).getD 0 []) 1 3 = sliceRs [(5 : ℚ), 6, 7] 0 2 :=
  ⟨claim_C1_amended.2.1 700,
   claim_C1_amended.2.2.2 [[0, 0, 0]] 1 3 0 [[5, 6, 7]] 0 (by decide)
     (by decide) (by decide) (by decide) (by decide)⟩

/-- C10: `pcm_i16_to_f32` does not clamp: `32767 ↦ 1.0` exactly while
`-32768` maps to a value strictly below `-1.0` (the rounding of
`-32768/32767`); `pcm_u16_to_f32` maps its whole domain into
`[-1.0, 1.0]`, with `0 ↦ -1.0` and `65535 ↦ 1.0` exactly. -/
theorem claim_C10 :
    pcm_i16_to_f32 32767 = 1 ∧
    pcm_i16_to_f32 (-32768) < -1 ∧
    pcm_i16_to_f32 (-32768) = pcm_i16_spec_formula (-32768) ∧
    (∀ s : ℤ, 0 ≤ s → s ≤ 65535 →
      -1 ≤ pcm_u16_to_f32 s ∧ pcm_u16_to_f32 s ≤ 1) ∧
    pcm_u16_to_f32 0 = -1 ∧
    pcm_u16_to_f32 65535 = 1 := by
  refine ⟨by decide, by decide, ?_, pcm_u16_to_f32_mem_Icc, by decide, by decide⟩
  have h1 : pcm_i16_to_f32 (-32768) = -(mkRat 32769 32768) := by decide
  have h2 : pcm_i16_spec_formula (-32768) = -(mkRat 32769 32768) := by decide
  rw [h1, h2]

/-- C10 (witness): the bounded-range part at a concrete sample. -/
theorem claim_C10_witness :
    -1 ≤ pcm_u16_to_f32 12345 ∧ pcm_u16_to_f32 12345 ≤ 1 :=
  claim_C10.2.2.2.1 12345 (by decide) (by decide)

/-- C9 (counterexample): the claim "every channel count other than 1 and
2 is a construction-time fatal error" fails at channel count 0:
`ConvolutionNode::info` only checks `CHANNELS > 2`, so constructing with
0 channels succeeds. -/
theorem claim_C9_counterexample :
    ConvolutionNode.info 0 = some ⟨"convolution", 0, 0⟩ := rfl

/-- C9 (amended): channel counts 1 and 2 succeed, every channel count
greater than 2 is a construction-time fatal error (in particular 3), and
channel count 0 is not rejected. -/
theorem claim_C9_amended :
    ConvolutionNode.info 1 = some ⟨"convolution", 1, 1⟩ ∧
    ConvolutionNode.info 2 = some ⟨"convolution", 2, 2⟩ ∧
    (∀ c : Nat, 2 < c → ConvolutionNode.info c = none) ∧
    ConvolutionNode.info 3 = none ∧
    ConvolutionNode.info 0 ≠ none := by
  refine ⟨rfl, rfl, ?_, rfl, by decide⟩
  intro c hc
  rw [ConvolutionNode.info, if_pos hc]

/-- C9 (witness): the universally quantified part at channel count 5. -/
theorem claim_C9_amended_witness :
    ConvolutionNode.info 5 = none :=
  claim_C9_amended.2.2.1 5 (by decide)

/-- C2: for every channel count (1, 2, 3, 5, ...), data array, buffer
set, range and start frame satisfying the fill precondition, the
optimized mono/stereo paths inside `fill_buffers_interleaved` and
`fill_buffers_deinterleaved` produce output bit-identical to the general
stride-by-channel-count path, for the same conversion function. -/
theorem claim_C2 :
    (∀ (τ α : Type) (inst : Inhabited τ) (buffers : List (List α))
        (bstart bend start_frame channels : Nat) (data : List τ)
        (convert : τ → α),
      1 ≤ channels → 1 ≤ buffers.length → bstart ≤ bend →
      (∀ buf ∈ buffers, bend ≤ List.length buf) →
      (start_frame + (bend - bstart)) * channels ≤ data.length →
      fill_buffers_interleaved buffers bstart bend start_frame channels data
          convert
        = fillInterleavedGeneral buffers bstart bend start_frame channels data
          convert) ∧
    (∀ (τ α : Type) (buffers : List (List α)) (bstart bend start_frame : Nat)
        (data : List (List τ)) (convert : τ → α),
      bstart ≤ bend →
      (∀ buf ∈ buffers, bend ≤ List.length buf) →
      (∀ ch ∈ data, start_frame + (bend - bstart) ≤ List.length ch) →
      fill_buffers_deinterleaved buffers bstart bend start_frame data convert
        = fillDeinterleavedGeneral buffers bstart bend start_frame data
          convert) := by
  constructor
  · intro τ α inst buffers bstart bend start_frame channels data convert h1 h2 h3 h4 h5
    exact fill_buffers_interleaved_eq_general buffers bstart bend start_frame
      channels data convert h1 h2 h3 h4 h5
  · intro τ α buffers bstart bend start_frame data convert h1 h2 h3
    exact fill_buffers_deinterleaved_eq_general buffers bstart bend start_frame
      data convert h1 h2 h3

/-- C2 (witness): the equivalence at concrete stereo inputs. -/
theorem claim_C2_witness :
    fill_buffers_interleaved ([[0, 0], [0, 0]] : List (List Int)) 0 2 0 2
        ([1, 2, 3, 4] : List Int) (fun s => s)
      = fillInterleavedGeneral [[0, 0], [0, 0]] 0 2 0 2 [1, 2, 3, 4]
        (fun s => s) :=
  claim_C2.1 Int Int inferInstance [[0, 0], [0, 0]] 0 2 0 2 [1, 2, 3, 4]
    (fun s => s) (by decide) (by decide) (by decide) (by decide) (by decide)

/-- C8: each fill helper writes only inside `buffer_range` of the first
`min (channel count, number of buffers)` destination buffers: buffer
lengths are preserved, samples before `bstart` and from `bend` on are
unchanged, buffers at channel indices at or beyond the channel count are
untouched, and an empty `buffer_range` mutates nothing at all. -/
theorem claim_C8 :
    (∀ (τ α : Type) (inst : Inhabited τ) (buffers : List (List α))
        (bstart bend start_frame channels : Nat) (data : List τ)
        (convert : τ → α),
      bstart ≤ bend →
      (fill_buffers_interleaved buffers bstart bend start_frame channels data
          convert).length = buffers.length ∧
      (∀ i, channels ≤ i →
        (fill_buffers_interleaved buffers bstart bend start_frame channels data
            convert).getD i [] = buffers.getD i []) ∧
      (∀ i,
        ((fill_buffers_interleaved buffers bstart bend start_frame channels data
            convert).getD i []).length = (buffers.getD i []).length ∧
        ((fill_buffers_interleaved buffers bstart bend start_frame channels data
            convert).getD i []).take bstart = (buffers.getD i []).take bstart ∧
        ((fill_buffers_interleaved buffers bstart bend start_frame channels data
            convert).getD i []).drop bend = (buffers.getD i []).drop bend) ∧
      (bstart = bend →
        fill_buffers_interleaved buffers bstart bend start_frame channels data
          convert = buffers)) ∧
    (∀ (τ α : Type) (buffers : List (List α)) (bstart bend start_frame : Nat)
        (data : List (List τ)) (convert : τ → α),
      bstart ≤ bend →
      (fill_buffers_deinterleaved buffers bstart bend start_frame data
          convert).length = buffers.length ∧
      (∀ i, data.length ≤ i →
        (fill_buffers_deinterleaved buffers bstart bend start_frame data
            convert).getD i [] = buffers.getD i []) ∧
      (∀ i,
        ((fill_buffers_deinterleaved buffers bstart bend start_frame data
            convert).getD i []).length = (buffers.getD i []).length ∧
        ((fill_buffers_deinterleaved buffers bstart bend start_frame data
            convert).getD i []).take bstart = (buffers.getD i []).take bstart ∧
        ((fill_buffers_deinterleaved buffers bstart bend start_frame data
            convert).getD i []).drop bend = (buffers.getD i []).drop bend) ∧
      (bstart = bend →
        fill_buffers_deinterleaved buffers bstart bend start_frame data convert
          = buffers)) ∧
    (∀ (α : Type) (buffers : List (List α)) (bstart bend start_frame : Nat)
        (data : List (List α)),
      bstart ≤ bend →
      (∀ buf ∈ buffers, bend ≤ List.length buf) →
      (∀ ch ∈ data, start_frame + (bend - bstart) ≤ List.length ch) →
      (fill_buffers_deinterleaved_f32 buffers bstart bend start_frame
          data).length = buffers.length ∧
      (∀ i, data.length ≤ i →
        (fill_buffers_deinterleaved_f32 buffers bstart bend start_frame
            data).getD i [] = buffers.getD i []) ∧
      (∀ i,
        ((fill_buffers_deinterleaved_f32 buffers bstart bend start_frame
            data).getD i []).length = (buffers.getD i []).length ∧
        ((fill_buffers_deinterleaved_f32 buffers bstart bend start_frame
            data).getD i []).take bstart = (buffers.getD i []).take bstart ∧
        ((fill_buffers_deinterleaved_f32 buffers bstart bend start_frame
            data).getD i []).drop bend = (buffers.getD i []).drop bend) ∧
      (bstart = bend →
        fill_buffers_deinterleaved_f32 buffers bstart bend start_frame data
          = buffers)) := by
  refine ⟨?_, ?_, ?_⟩
  · intro τ α inst buffers bstart bend start_frame channels data convert hr
    exact preserves_of_shape buffers _ bstart bend channels hr
      (fun i => fill_buffers_interleaved_shape buffers bstart bend start_frame
        channels data convert i)
  · intro τ α buffers bstart bend start_frame data convert hr
    exact preserves_of_shape buffers _ bstart bend data.length hr
      (fun i => fill_buffers_deinterleaved_shape buffers bstart bend start_frame
        data convert i)
  · intro α buffers bstart bend start_frame data hr hlen hdata
    exact preserves_of_shape buffers _ bstart bend data.length hr
      (fun i => fill_buffers_deinterleaved_f32_shape buffers bstart bend
        start_frame data hr hlen hdata i)

/-- C8 (witness): an empty range mutates nothing, at concrete inputs. -/
theorem claim_C8_witness :
    fill_buffers_interleaved ([[7, 8], [9, 10]] : List (List Int)) 1 1 0 2
      ([1, 2, 3, 4] : List Int) (fun s => s) = [[7, 8], [9, 10]] :=
  ((claim_C8.1 Int Int inferInstance [[7, 8], [9, 10]] 1 1 0 2 [1, 2, 3, 4]
    (fun s => s) (by decide)).2.2.2) rfl

/-- C3: the processor allocates exactly `max_impulse_channel_count`
convolvers; handling an `ImpulseResponse` patch initializes convolver
`i` for every `i < CHANNELS` and per-block processing reads convolver
`input_index` for every input channel, so every access is in bounds
whenever `max_impulse_channel_count ≥ CHANNELS`; and for a stereo node
(`CHANNELS = 2`) configured with `max_impulse_channel_count = 1`,
applying an impulse-response patch (and hence the enclosing `process`
call) indexes the convolver vector out of bounds — a panic, modelled as
`none`. -/
theorem claim_C3 :
    (∀ (CHANNELS : Nat) (γ : Type) (dflt : γ) (node : ConvolutionNode)
        (config : ConvolutionNodeConfig) (mbf : Nat),
      (construct_processor CHANNELS γ dflt node config mbf).convolvers.length
        = config.max_impulse_channel_count) ∧
    (∀ (CHANNELS : Nat) (γ : Type) (ops : ConvOps γ) (frames : Nat)
        (st : ConvolutionProcessor γ) (r : SampleResourceF32Model),
      CHANNELS ≤ st.convolvers.length → r.chans ≠ [] →
      (drainPatches CHANNELS γ ops frames st
        [ConvolutionNodePatch.ImpulseResponse (some r)]).isSome) ∧
    (∀ (γ : Type) (ops : ConvOps γ) (gains : List ℚ)
        (inputs : List (List ℚ)) (convs : List γ) (outs : List (List ℚ)),
      inputs.length ≤ convs.length → inputs.length ≤ outs.length →
      (convolveChannels γ ops gains inputs 0 convs outs).isSome) ∧
    drainPatches 2 Unit unitConvOps 4
      (construct_processor 2 Unit () ConvolutionNode.defaultNode ⟨1⟩ 4)
      [ConvolutionNodePatch.ImpulseResponse (some ⟨[[0, 0, 0, 0]]⟩)] = none ∧
    process 2 Unit unitConvOps
      (construct_processor 2 Unit () ConvolutionNode.defaultNode ⟨1⟩ 4)
      [ConvolutionNodePatch.ImpulseResponse (some ⟨[[0, 0, 0, 0]]⟩)]
      [[1, 0, 0, 0], [0, 1, 0, 0]] [[0, 0, 0, 0], [0, 0, 0, 0]] 4 (mkRat 1 10)
      = none := by
  refine ⟨?_, ?_, ?_, by rfl, by rfl⟩
  · intro CHANNELS γ dflt node config mbf
    exact List.length_replicate _ _
  · intro CHANNELS γ ops frames st r hlen hr
    have hmax : max (min r.num_channels CHANNELS) CHANNELS = CHANNELS := by
      omega
    obtain ⟨convs', heq, _, _, _⟩ := initConvolversAux_spec γ ops frames r hr
      (max (min r.num_channels CHANNELS) CHANNELS) 0 st.convolvers
      (by omega)
    rw [drainPatches, List.foldlM_cons]
    simp only [applyPatch, initConvolvers, heq]
    rfl
  · intro γ ops gains inputs convs outs h1 h2
    exact convolveChannels_isSome γ ops gains inputs 0 convs outs
      (by omega) (by omega)

/-- C3 (witness): the in-bounds parts at concrete inputs. -/
theorem claim_C3_witness :
    (drainPatches 2 Unit unitConvOps 4
      (construct_processor 2 Unit () ConvolutionNode.defaultNode ⟨2⟩ 4)
      [ConvolutionNodePatch.ImpulseResponse (some ⟨[[0, 0, 0, 0]]⟩)]).isSome ∧
    (convolveChannels Unit unitConvOps [1] [[1], [2]] 0 [(), ()]
      [[0], [0]]).isSome :=
  ⟨claim_C3.2.1 2 Unit unitConvOps 4
      (construct_processor 2 Unit () ConvolutionNode.defaultNode ⟨2⟩ 4)
      ⟨[[0, 0, 0, 0]]⟩ (by decide) (by decide),
   claim_C3.2.2.1 Unit unitConvOps [1] [[1], [2]] [(), ()] [[0], [0]]
      (by decide) (by decide)⟩

/-- C4: applying an `ImpulseResponse` patch carrying a resource succeeds
whenever the convolver vector covers the node's channels and the
resource is nonempty: it stores the reference, reports the change, and
re-initializes convolver `i` from the resource's channel `i` for every
`i < CHANNELS`, falling back to channel 0 where the resource lacks the
channel — in particular a mono impulse response loaded into a stereo
node (with a stereo-capable convolver vector) initializes both engines
from that single channel, with no fatal error. -/
theorem claim_C4 :
    (∀ (CHANNELS : Nat) (γ : Type) (ops : ConvOps γ) (frames : Nat)
        (st : ConvolutionProcessor γ) (r : SampleResourceF32Model),
      CHANNELS ≤ st.convolvers.length → r.chans ≠ [] →
      ∃ convs',
        drainPatches CHANNELS γ ops frames st
            [ConvolutionNodePatch.ImpulseResponse (some r)]
          = some ({ st with
              params := { st.params with impulse_response := some r }
              convolvers := convs' }, false, true) ∧
        convs'.length = st.convolvers.length ∧
        (∀ i, i < CHANNELS →
          convs'.get? i = (st.convolvers.get? i).map
            (ops.init frames (((r.channel i).or (r.channel 0)).getD []))) ∧
        (∀ i, i < CHANNELS → r.num_channels ≤ i →
          convs'.get? i = (st.convolvers.get? i).map
            (ops.init frames (r.chans.getD 0 []))) ∧
        (∀ i, CHANNELS ≤ i → convs'.get? i = st.convolvers.get? i)) ∧
    (∀ (γ : Type) (ops : ConvOps γ) (frames : Nat) (c0 c1 : γ)
        (ir0 : List ℚ) (params : ConvolutionNode) (ib : List (List ℚ))
        (mixdsp : MixDSP) (wgs : SmoothedParam) (wgb : List ℚ)
        (dck : Declicker) (cid : LowpassDeclicker),
      drainPatches 2 γ ops frames
          ⟨params, [c0, c1], ib, mixdsp, wgs, wgb, dck, cid⟩
          [ConvolutionNodePatch.ImpulseResponse (some ⟨[ir0]⟩)]
        = some (⟨{ params with impulse_response := some ⟨[ir0]⟩ },
            [ops.init frames ir0 c0, ops.init frames ir0 c1], ib, mixdsp, wgs,
            wgb, dck, cid⟩, false, true)) := by
  constructor
  · intro CHANNELS γ ops frames st r hlen hr
    have hmax : max (min r.num_channels CHANNELS) CHANNELS = CHANNELS := by omega
    obtain ⟨convs', heq, hlen', huntouched, hinit⟩ :=
      initConvolversAux_spec γ ops frames r hr
        (max (min r.num_channels CHANNELS) CHANNELS) 0 st.convolvers (by omega)
    refine ⟨convs', ?_, hlen', ?_, ?_, ?_⟩
    · rw [drainPatches, List.foldlM_cons]
      simp only [applyPatch, initConvolvers, heq]
      rfl
    · intro i hi
      exact hinit i (by omega) (by omega)
    · intro i hi hnum
      have h1 := hinit i (by omega) (by omega)
      have hchan : r.channel i = none := by
        rw [SampleResourceF32Model.channel, List.get?_eq_none]
        exact hnum
      have hchan0 : r.channel 0 = some (r.chans.getD 0 []) := by
        cases hc : r.chans with
        | nil => exact absurd hc hr
        | cons c rest =>
          rw [SampleResourceF32Model.channel, hc]
          rfl
      rw [h1, hchan, hchan0]
      rfl
    · intro i hi
      exact huntouched i (by omega)
  · intro γ ops frames c0 c1 ir0 params ib mixdsp wgs wgb dck cid
    rfl

/-- C4 (witness): the general part at a concrete stereo processor. -/
theorem claim_C4_witness :
    (drainPatches 2 Unit unitConvOps 4
      (construct_processor 2 Unit () ConvolutionNode.defaultNode
        ConvolutionNodeConfig.default 4)
      [ConvolutionNodePatch.ImpulseResponse (some ⟨[[1, 2]]⟩)]).isSome := by
  obtain ⟨convs', heq, _⟩ := claim_C4.1 2 Unit unitConvOps 4
    (construct_processor 2 Unit () ConvolutionNode.defaultNode
      ConvolutionNodeConfig.default 4) ⟨[[1, 2]]⟩ (by decide) (by decide)
  rw [heq]
  rfl

/-- C5 (counterexample): the claim "a Paused(true) patch ... sets its
mirrored paused flag only after the block's processing completes, so
subsequent blocks are cleared" fails when no impulse response is loaded:
the bypass early-return skips the deferred commit, so the arrival block
bypasses and the paused flag is still false afterwards — subsequent
blocks bypass instead of being cleared. -/
theorem claim_C5_counterexample :
    (process 2 Unit unitConvOps
      (construct_processor 2 Unit () ConvolutionNode.defaultNode
        ConvolutionNodeConfig.default 1)
      [ConvolutionNodePatch.Paused true] [[1], [1]] [[0], [0]] 1
      (mkRat 1 10)).map (fun r => (r.2.1, r.1.params.paused))
      = some (ProcessStatus.Bypass, false) := by decide

/-- C5 (amended): when an impulse response is loaded and the node is not
already paused, a Paused(true) patch does not silence its arrival block
— the full DSP chain runs and the mirrored paused flag is set only after
the block completes, so the following block (already paused, no resume)
is cleared; a Paused(false) patch takes effect immediately within the
same block; and draining either pause patch retargets the enable/disable
declicker toward the opposite of the requested paused state. -/
theorem claim_C5_amended :
    (∀ (CHANNELS : Nat) (γ : Type) (ops : ConvOps γ)
        (st : ConvolutionProcessor γ) (inputs outputs : List (List ℚ))
        (frames : Nat) (step : ℚ)
        (res : ConvolutionProcessor γ × ProcessStatus × List (List ℚ)),
      st.params.paused = false → st.params.impulse_response.isSome →
      process CHANNELS γ ops st [ConvolutionNodePatch.Paused true] inputs
          outputs frames step = some res →
      (∃ mask, res.2.1 = ProcessStatus.OutputsModified mask) ∧
      res.1.params.paused = true) ∧
    (∀ (CHANNELS : Nat) (γ : Type) (ops : ConvOps γ)
        (st : ConvolutionProcessor γ) (inputs outputs : List (List ℚ))
        (frames : Nat) (step : ℚ),
      st.params.paused = true →
      process CHANNELS γ ops st [] inputs outputs frames step
        = some (st, ProcessStatus.ClearAllOutputs, outputs)) ∧
    (∀ (CHANNELS : Nat) (γ : Type) (ops : ConvOps γ)
        (st : ConvolutionProcessor γ) (inputs outputs : List (List ℚ))
        (frames : Nat) (step : ℚ)
        (res : ConvolutionProcessor γ × ProcessStatus × List (List ℚ)),
      st.params.paused = true →
      process CHANNELS γ ops st [ConvolutionNodePatch.Paused false] inputs
          outputs frames step = some res →
      res.2.1 ≠ ProcessStatus.ClearAllOutputs ∧ res.1.params.paused = false) ∧
    (∀ (CHANNELS : Nat) (γ : Type) (ops : ConvOps γ) (frames : Nat)
        (st st1 : ConvolutionProcessor γ) (b wp irc : Bool),
      drainPatches CHANNELS γ ops frames st [ConvolutionNodePatch.Paused b]
          = some (st1, wp, irc) →
      st1.declick.target = ! b) := by
  refine ⟨?_, ?_, ?_, ?_⟩
  · intro CHANNELS γ ops st inputs outputs frames step res hp hir h
    have hshape := process_main_shape CHANNELS γ ops st
      [ConvolutionNodePatch.Paused true] inputs outputs frames step
      { st with declick := st.declick.fade_to_enabled false } true false
      (drainPatches_pause CHANNELS γ ops frames st) hp hir res h
    refine ⟨hshape.1, ?_⟩
    rw [hshape.2]
    rfl
  · intro CHANNELS γ ops st inputs outputs frames step hp
    exact process_of_paused CHANNELS γ ops st [] inputs outputs frames step st
      false false (drainPatches_nil CHANNELS γ ops frames st) hp
  · intro CHANNELS γ ops st inputs outputs frames step res hp h
    cases hir : st.params.impulse_response with
    | none =>
      rw [process_of_bypass CHANNELS γ ops st [ConvolutionNodePatch.Paused false]
        inputs outputs frames step
        { st with params := { st.params with paused := false }
                  declick := st.declick.fade_to_enabled true } false false
        (drainPatches_resume CHANNELS γ ops frames st) rfl hir] at h
      rw [Option.some_inj] at h
      subst h
      exact ⟨by simp, rfl⟩
    | some v =>
      have hshape := process_main_shape CHANNELS γ ops st
        [ConvolutionNodePatch.Paused false] inputs outputs frames step
        { st with params := { st.params with paused := false }
                  declick := st.declick.fade_to_enabled true } false false
        (drainPatches_resume CHANNELS γ ops frames st) rfl (by rw [hir]; rfl)
        res h
      obtain ⟨⟨mask, hmask⟩, hpau⟩ := hshape
      refine ⟨by rw [hmask]; intro hc; exact ProcessStatus.noConfusion hc, ?_⟩
      rw [hpau]
      rfl
  · intro CHANNELS γ ops frames st st1 b wp irc h
    cases b with
    | true =>
      rw [drainPatches_pause] at h
      rw [Option.some_inj] at h
      have h1 : st1 = { st with declick := st.declick.fade_to_enabled false } := by
        have := congrArg Prod.fst h
        exact this.symm
      rw [h1]
      rfl
    | false =>
      rw [drainPatches_resume] at h
      rw [Option.some_inj] at h
      have h1 : st1 =
          { st with params := { st.params with paused := false }
                    declick := st.declick.fade_to_enabled true } := by
        have := congrArg Prod.fst h
        exact this.symm
      rw [h1]
      rfl

/-- C5 (witness): a paused processor with no pending patches is cleared. -/
theorem claim_C5_amended_witness :
    process 2 Unit unitConvOps
      { construct_processor 2 Unit () ConvolutionNode.defaultNode
          ConvolutionNodeConfig.default 1 with
        params := { ConvolutionNode.defaultNode with paused := true } }
      [] [[1], [1]] [[0], [0]] 1 (mkRat 1 10)
      = some ({ construct_processor 2 Unit () ConvolutionNode.defaultNode
          ConvolutionNodeConfig.default 1 with
        params := { ConvolutionNode.defaultNode with paused := true } },
        ProcessStatus.ClearAllOutputs, [[0], [0]]) :=
  claim_C5_amended.2.1 2 Unit unitConvOps
    { construct_processor 2 Unit () ConvolutionNode.defaultNode
        ConvolutionNodeConfig.default 1 with
      params := { ConvolutionNode.defaultNode with paused := true } }
    [[1], [1]] [[0], [0]] 1 (mkRat 1 10) rfl

/-- C6: for every block whose drained state is still paused (the node
was already paused and no resume patch arrived), `process` returns
`ClearAllOutputs`, leaves the given output buffers untouched, and its
resulting state is exactly the state after patch application — no other
processor state is advanced; with no patches at all the state is
entirely unchanged. -/
theorem claim_C6 :
    ∀ (CHANNELS : Nat) (γ : Type) (ops : ConvOps γ)
      (st : ConvolutionProcessor γ) (patches : List ConvolutionNodePatch)
      (inputs outputs : List (List ℚ)) (frames : Nat) (step : ℚ)
      (st1 : ConvolutionProcessor γ) (wp irc : Bool),
      (∀ p ∈ patches, p ≠ ConvolutionNodePatch.Paused false) →
      st.params.paused = true →
      drainPatches CHANNELS γ ops frames st patches = some (st1, wp, irc) →
      process CHANNELS γ ops st patches inputs outputs frames step
        = some (st1, ProcessStatus.ClearAllOutputs, outputs) ∧
      (patches = [] → st1 = st) := by
  intro CHANNELS γ ops st patches inputs outputs frames step st1 wp irc hall hp hdrain
  have hp1 : st1.params.paused = true := by
    have := drainPatches_paused CHANNELS γ ops frames patches (st, false, false)
      (st1, wp, irc) hall hdrain
    rw [this, hp]
  refine ⟨process_of_paused CHANNELS γ ops st patches inputs outputs frames step
    st1 wp irc hdrain hp1, ?_⟩
  intro he
  subst he
  rw [drainPatches_nil] at hdrain
  rw [Option.some_inj] at hdrain
  exact (congrArg Prod.fst hdrain).symm

/-- C6 (witness): the paused branch at a concrete processor. -/
theorem claim_C6_witness :
    process 1 Unit unitConvOps
      { construct_processor 1 Unit () ConvolutionNode.defaultNode
          ConvolutionNodeConfig.default 2 with
        params := { ConvolutionNode.defaultNode with paused := true } }
      [ConvolutionNodePatch.Mix (mkRat 1 4)] [[1, 2]] [[3, 4]] 2 (mkRat 1 10)
      = some ({ construct_processor 1 Unit () ConvolutionNode.defaultNode
          ConvolutionNodeConfig.default 2 with
        params := { ConvolutionNode.defaultNode with paused := true }
        mix := MixDSP.set_mix
          { mix := ConvolutionNode.defaultNode.mix,
            curve := ConvolutionNode.defaultNode.fade_curve }
          (mkRat 1 4) ConvolutionNode.defaultNode.fade_curve },
        ProcessStatus.ClearAllOutputs, [[3, 4]]) :=
  (claim_C6 1 Unit unitConvOps
    { construct_processor 1 Unit () ConvolutionNode.defaultNode
        ConvolutionNodeConfig.default 2 with
      params := { ConvolutionNode.defaultNode with paused := true } }
    [ConvolutionNodePatch.Mix (mkRat 1 4)] [[1, 2]] [[3, 4]] 2 (mkRat 1 10)
    _ false false (by intro p hp; simp at hp; simp [hp]) rfl rfl).1

/-- C7: for every block whose drained state is unpaused with no impulse
response loaded, `process` returns `Bypass`, writes nothing to the
output buffers, and leaves the processor state exactly as patch
application left it — for every mix, wet-gain and fade-curve setting. -/
theorem claim_C7 :
    ∀ (CHANNELS : Nat) (γ : Type) (ops : ConvOps γ)
      (st : ConvolutionProcessor γ) (patches : List ConvolutionNodePatch)
      (inputs outputs : List (List ℚ)) (frames : Nat) (step : ℚ)
      (st1 : ConvolutionProcessor γ) (wp irc : Bool),
      drainPatches CHANNELS γ ops frames st patches = some (st1, wp, irc) →
      st1.params.paused = false →
      st1.params.impulse_response = none →
      process CHANNELS γ ops st patches inputs outputs frames step
        = some (st1, ProcessStatus.Bypass, outputs) := by
  intro CHANNELS γ ops st patches inputs outputs frames step st1 wp irc hdrain hp hir
  exact process_of_bypass CHANNELS γ ops st patches inputs outputs frames step
    st1 wp irc hdrain hp hir

/-- C7 (witness): the bypass branch at a concrete processor. -/
theorem claim_C7_witness :
    process 2 Unit unitConvOps
      (construct_processor 2 Unit () ConvolutionNode.defaultNode
        ConvolutionNodeConfig.default 2)
      [] [[1, 2], [3, 4]] [[5, 6], [7, 8]] 2 (mkRat 1 10)
      = some (construct_processor 2 Unit () ConvolutionNode.defaultNode
          ConvolutionNodeConfig.default 2,
        ProcessStatus.Bypass, [[5, 6], [7, 8]]) :=
  claim_C7 2 Unit unitConvOps
    (construct_processor 2 Unit () ConvolutionNode.defaultNode
      ConvolutionNodeConfig.default 2)
    [] [[1, 2], [3, 4]] [[5, 6], [7, 8]] 2 (mkRat 1 10)
    (construct_processor 2 Unit () ConvolutionNode.defaultNode
      ConvolutionNodeConfig.default 2) false false rfl rfl rfl
